import Mathlib

/-!
# Othello engine (`my_player.c`): board model, move rules, search, coordinator

A shallow embedding of the C source.  `int` values are `Int`; no computation of
the engine leaves the 32-bit range (scores are bounded by the weight table, the
sentinels `INT_MIN` / `INT_MAX` are only compared, never added to).

The board is a block of `BOARDSIZE = 100` ints.  It is modelled as a map from
index to value together with the bounds check that C leaves to the programmer:
`rd` and `wr` return `none` for an index outside `0 .. 99` (undefined behaviour
in C).  Loops whose termination is not syntactically bounded carry a fuel
argument and return `none` when it runs out; every other function threads the
`Option`.  The logging handle `fp` and the unused `rank` argument are dropped.
-/

namespace MyPlayer

/-! ## Constants -/

def EMPTY : Int := 0
def BLACK : Int := 1
def WHITE : Int := 2
def OUTER : Int := 3
def ALLDIRECTIONS : List Int := [-11, -10, -9, -1, 1, 9, 10, 11]
def BOARDSIZE : Int := 100
def LEGALMOVSBUFSIZE : Nat := 65
def INT_MIN : Int := -2147483648
def INT_MAX : Int := 2147483647

/-! ## Memory model of the board -/

/-- The `int *` board: cell contents by linear index. Only `0 .. 99` is storage. -/
abbrev Board := Int → Int

/-- Read `board[i]`; `none` outside the allocated block. -/
def rd (board : Board) (i : Int) : Option Int :=
  if 0 ≤ i ∧ i < BOARDSIZE then some (board i) else none

/-- Write `board[i] = v`; `none` outside the allocated block. -/
def wr (board : Board) (i v : Int) : Option Board :=
  if 0 ≤ i ∧ i < BOARDSIZE then some (fun j => if j = i then v else board j) else none

/-! ## Board model -/

/-- Source `initialise_board`: the three loops followed by the four assignments. -/
def initialise_board : Board := fun i =>
  if i = 55 then WHITE
  else if i = 54 then BLACK
  else if i = 45 then BLACK
  else if i = 44 then WHITE
  else if 0 ≤ i ∧ i ≤ 9 then OUTER
  else if 10 ≤ i ∧ i ≤ 89 then (if Int.tmod i 10 ≥ 1 ∧ Int.tmod i 10 ≤ 8 then EMPTY else OUTER)
  else if 90 ≤ i ∧ i ≤ 99 then OUTER
  else 0

/-- Source `validp`. C's `%` truncates, hence `Int.tmod`. -/
def validp (move : Int) : Int :=
  if move ≥ 11 ∧ move ≤ 88 ∧ Int.tmod move 10 ≥ 1 ∧ Int.tmod move 10 ≤ 8 then 1 else 0

/-- Source `opponent`, as the value it returns. For a player outside BLACK/WHITE the
    source first runs `fprintf(fp, "illegal player\n")`, and `fp` is `NULL` in the calls
    made from `minimax`, `evaluate`, `run_worker` and the re-scoring loop of
    `bens_strategy`: that write is not modelled, so the definition stands for the source
    only for a player in BLACK/WHITE, or where `fp` is the open log file. -/
def opponent (player : Int) : Int :=
  if player = BLACK then WHITE
  else if player = WHITE then BLACK
  else EMPTY

/-- Source `max`. -/
protected def max (value1 value2 : Int) : Int :=
  if value1 > value2 then value1 else value2

/-- Source `min`. -/
protected def min (value1 value2 : Int) : Int :=
  if value1 > value2 then value2 else value1

/-! ## Move rules -/

/-- The `while` loop of `find_bracket_piece`: returns the square at which it stops. -/
def find_bracket_loop : Nat → Int → Int → Int → Board → Option Int
  | 0, _, _, _, _ => none
  | fuel + 1, square, dir, player, board =>
    if validp square ≠ 0 then
      match rd board square with
      | none => none
      | some v =>
        if v = opponent player then find_bracket_loop fuel (square + dir) dir player board
        else some square
    else some square

/-- Source `find_bracket_piece`. -/
def find_bracket_piece (square dir player : Int) (board : Board) : Option Int :=
  match find_bracket_loop 100 square dir player board with
  | none => none
  | some sq =>
    if validp sq ≠ 0 then
      match rd board sq with
      | none => none
      | some v => if v = player then some sq else some 0
    else some 0

/-- Source `would_flip`. -/
def would_flip (move dir player : Int) (board : Board) : Option Int :=
  match rd board (move + dir) with
  | none => none
  | some v =>
    if v = opponent player then find_bracket_piece (move + dir + dir) dir player board
    else some 0

/-- The `while (i <= 7 && !would_flip(...)) i++` loop of `legalp`, over the directions
    `ALLDIRECTIONS[i ..]`; returns the final `i`. -/
def legalp_loop (move player : Int) (board : Board) : List Int → Nat → Option Nat
  | [], i => some i
  | d :: ds, i =>
    match would_flip move d player board with
    | none => none
    | some w => if w = 0 then legalp_loop move player board ds (i + 1) else some i

/-- Source `legalp`. -/
def legalp (move player : Int) (board : Board) : Option Int :=
  if validp move = 0 then some 0
  else
    match rd board move with
    | none => none
    | some v =>
      if v = EMPTY then
        match legalp_loop move player board ALLDIRECTIONS 0 with
        | none => none
        | some i => if i = 8 then some 0 else some 1
      else some 0

/-- The candidate squares `11 .. 88` scanned by `legal_moves`. -/
def scan_squares : List Int := (List.range 78).map (fun (k : Nat) => (k : Int) + 11)

/-- The `for` loop of `legal_moves`; `acc` is `moves[1 .. i]`. Writing `moves[i]` with
    `i >= LEGALMOVSBUFSIZE` would overrun the buffer and yields `none`. -/
def legal_moves_loop (player : Int) (board : Board) : List Int → List Int → Option (List Int)
  | [], acc => some acc
  | move :: rest, acc =>
    match legalp move player board with
    | none => none
    | some l =>
      if l ≠ 0 then
        if acc.length + 1 < LEGALMOVSBUFSIZE then
          legal_moves_loop player board rest (acc ++ [move])
        else none
      else legal_moves_loop player board rest acc

/-- Source `legal_moves`: the written part `moves[0 .. n]` of the buffer, `moves[0] = n`. -/
def legal_moves (player : Int) (board : Board) : Option (List Int) :=
  match legal_moves_loop player board scan_squares [] with
  | none => none
  | some ms => some ((ms.length : Int) :: ms)

/-- Source `process_moves`: `array[i] = moves[i + 1]` for `i < amount_of_moves`;
    `none` when it would read past the written part of `moves`. -/
def process_moves (moves : List Int) (amount_of_moves : Int) : Option (List Int) :=
  if amount_of_moves ≤ 0 then some []
  else if amount_of_moves.toNat + 1 ≤ moves.length then
    some ((moves.drop 1).take amount_of_moves.toNat)
  else none

/-- The `do ... while (c != bracketer)` loop of `make_flips`. -/
def make_flips_loop : Nat → Int → Int → Int → Int → Board → Option Board
  | 0, _, _, _, _, _ => none
  | fuel + 1, c, dir, player, bracketer, board =>
    match wr board c player with
    | none => none
    | some b1 =>
      if c + dir ≠ bracketer then make_flips_loop fuel (c + dir) dir player bracketer b1
      else some b1

/-- Source `make_flips`. -/
def make_flips (move dir player : Int) (board : Board) : Option Board :=
  match would_flip move dir player board with
  | none => none
  | some bracketer =>
    if bracketer ≠ 0 then make_flips_loop 100 (move + dir) dir player bracketer board
    else some board

/-- The `for (i = 0; i <= 7; i++)` loop of `make_move` over `ALLDIRECTIONS`. -/
def make_move_loop (move player : Int) : List Int → Board → Option Board
  | [], board => some board
  | d :: ds, board =>
    match make_flips move d player board with
    | none => none
    | some b1 => make_move_loop move player ds b1

/-- Source `make_move` (mutates the board in place: the result is the new contents). -/
def make_move (move player : Int) (board : Board) : Option Board :=
  match wr board move player with
  | none => none
  | some b0 => make_move_loop move player ALLDIRECTIONS b0

/-- Source `count`: cells `1 .. 88`. -/
def count (player : Int) (board : Board) : Int :=
  ((List.range 88).map (fun (k : Nat) => (k : Int) + 1)).foldl
    (fun cnt i => if board i = player then cnt + 1 else cnt) 0

/-! ## Evaluator -/

/-- The table `weights` of `evaluate`. -/
def weights : List Int :=
  [0, 0, 0, 0, 0, 0, 0, 0, 0, 0,
   0, 5, -3, 2, 2, 2, 2, -3, 5, 0,
   0, -3, -4, -1, -1, -1, -1, -4, -3, 0,
   0, 2, -1, 1, 0, 0, 1, -1, 2, 0,
   0, 2, -1, 0, 1, 1, 0, -1, 2, 0,
   0, 2, -1, 0, 1, 1, 0, -1, 2, 0,
   0, 2, -1, 1, 0, 0, 1, -1, 2, 0,
   0, -3, -4, -1, -1, -1, -1, -4, -3, 0,
   0, 5, -3, 2, 2, 2, 2, -3, 5, 0,
   0, 0, 0, 0, 0, 0, 0, 0, 0, 0]

/-- Source `evaluate`: cells `11 .. 88`. -/
def evaluate (player : Int) (board : Board) : Int :=
  scan_squares.foldl
    (fun score i =>
      if board i = player then score + weights.getD i.toNat 0
      else if board i = opponent player then score - weights.getD i.toNat 0
      else score) 0

/-! ## Specification vocabulary -/

/-- A board as the engine keeps it: every perimeter cell holds `OUTER`, every interior
    cell holds `EMPTY`, `BLACK` or `WHITE`. -/
def WellFormed (b : Board) : Prop :=
  ∀ i : Nat, i < 100 →
    if validp (i : Int) ≠ 0 then (b i = EMPTY ∨ b i = BLACK ∨ b i = WHITE) else b i = OUTER

instance (b : Board) : Decidable (WellFormed b) := by unfold WellFormed; infer_instance

/-- Direction `d` brackets a run of `k` opponent pieces next to `move`: cells
    `move + d, ..., move + k*d` hold the opponent and `move + (k+1)*d` holds `p`. -/
def Brackets (b : Board) (move d p : Int) (k : Nat) : Prop :=
  1 ≤ k ∧ (∀ j : Nat, 1 ≤ j → j ≤ k → b (move + j * d) = opponent p) ∧
    b (move + (k + 1 : Nat) * d) = p

/-- The bracket as `would_flip` / `find_bracket_piece` test it: as `Brackets`, and the
    cells from the second on pass `validp`. -/
def Flips (b : Board) (move d p : Int) (k : Nat) : Prop :=
  1 ≤ k ∧ b (move + d) = opponent p ∧
    (∀ j : Nat, 2 ≤ j → j ≤ k → validp (move + j * d) ≠ 0 ∧ b (move + j * d) = opponent p) ∧
    validp (move + (k + 1 : Nat) * d) ≠ 0 ∧ b (move + (k + 1 : Nat) * d) = p

/-- Cell `x` lies in a run that some direction of `ds` brackets for `p` at `move` on `b`. -/
def Flipped (b : Board) (move p : Int) (ds : List Int) (x : Int) : Prop :=
  ∃ d ∈ ds, ∃ k j : Nat, Flips b move d p k ∧ 1 ≤ j ∧ j ≤ k ∧ x = move + j * d

/-- The state of the board while `make_move` runs, after the directions `ds` have been
    processed: the move cell and the runs bracketed on the original board `b` hold `p`,
    every other cell is as in `b`. -/
def FlipState (b : Board) (move p : Int) (ds : List Int) (cur : Board) : Prop :=
  cur move = p ∧ (∀ x, Flipped b move p ds x → cur x = p) ∧
    (∀ x, x ≠ move → ¬ Flipped b move p ds x → cur x = b x)

/-! ## Sequential search -/

/-- Source `has_legal_moves`: `future_moves[0] > 0`. -/
def has_legal_moves (board : Board) (player : Int) : Option Int :=
  match legal_moves player board with
  | none => none
  | some [] => none
  | some (size :: _) => some (if size > 0 then 1 else 0)

/-- Source `is_game_over_move`; the second `has_legal_moves` is only evaluated when the
    first reports no move (`&&` short-circuits). -/
def is_game_over_move (board : Board) : Option Int :=
  match has_legal_moves board BLACK with
  | none => none
  | some hb =>
    if hb = 0 then
      match has_legal_moves board WHITE with
      | none => none
      | some hw => if hw = 0 then some 1 else some 0
    else some 0

/-- The `for` loop of the maximising branch of `minimax`. `search b alpha beta` stands for
    the recursive call `minimax(board, opponent(player), depth - 1, rank, alpha, beta)`.
    The board is the caller's array, mutated in place by `make_move` and by the recursive
    call, so it is threaded through the loop and returned with the score. -/
def minimax_max_loop (search : Board → Int → Int → Option (Int × Board)) (player : Int) :
    List Int → Board → Int → Int → Int → Option (Int × Board)
  | [], board, maxEval, _, _ => some (maxEval, board)
  | m :: ms, board, maxEval, alpha, beta =>
    match make_move m player board with
    | none => none
    | some b1 =>
      match search b1 alpha beta with
      | none => none
      | some (eval, b2) =>
        if beta ≤ MyPlayer.max alpha eval then some (MyPlayer.max maxEval eval, b2)
        else
          minimax_max_loop search player ms b2 (MyPlayer.max maxEval eval)
            (MyPlayer.max alpha eval) beta

/-- The `for` loop of the minimising branch of `minimax`. -/
def minimax_min_loop (search : Board → Int → Int → Option (Int × Board)) (player : Int) :
    List Int → Board → Int → Int → Int → Option (Int × Board)
  | [], board, minEval, _, _ => some (minEval, board)
  | m :: ms, board, minEval, alpha, beta =>
    match make_move m player board with
    | none => none
    | some b1 =>
      match search b1 alpha beta with
      | none => none
      | some (eval, b2) =>
        if MyPlayer.min beta eval ≤ alpha then some (MyPlayer.min minEval eval, b2)
        else
          minimax_min_loop search player ms b2 (MyPlayer.min minEval eval) alpha
            (MyPlayer.min beta eval)

/-- Source `minimax`, by recursion on `depth` (every call of the source passes a
    non-negative depth: 5 from `run_worker`, 1 from `bens_strategy`, `depth - 1` below).
    Returns the score together with the final contents of the board array. -/
def minimax : Nat → Board → Int → Int → Int → Option (Int × Board)
  | 0, board, player, _, _ => some (evaluate player board, board)
  | depth + 1, board, player, alpha, beta =>
    match is_game_over_move board with
    | none => none
    | some over =>
      if over ≠ 0 then some (evaluate player board, board)
      else
        match legal_moves player board with
        | none => none
        | some [] => none
        | some (size :: future_moves) =>
          match process_moves (size :: future_moves) size with
          | none => none
          | some moves =>
            if player ≠ 0 then
              minimax_max_loop (fun b a be => minimax depth b (opponent player) a be)
                player moves board INT_MIN alpha beta
            else
              minimax_min_loop (fun b a be => minimax depth b (opponent player) a be)
                player moves board INT_MAX alpha beta

/-- The maximising loop with the `beta <= alpha` cutoff removed. -/
def unpruned_max_loop (search : Board → Int → Int → Option (Int × Board)) (player : Int) :
    List Int → Board → Int → Int → Int → Option (Int × Board)
  | [], board, maxEval, _, _ => some (maxEval, board)
  | m :: ms, board, maxEval, alpha, beta =>
    match make_move m player board with
    | none => none
    | some b1 =>
      match search b1 alpha beta with
      | none => none
      | some (eval, b2) =>
        unpruned_max_loop search player ms b2 (MyPlayer.max maxEval eval)
          (MyPlayer.max alpha eval) beta

/-- The minimising loop with the `beta <= alpha` cutoff removed. -/
def unpruned_min_loop (search : Board → Int → Int → Option (Int × Board)) (player : Int) :
    List Int → Board → Int → Int → Int → Option (Int × Board)
  | [], board, minEval, _, _ => some (minEval, board)
  | m :: ms, board, minEval, alpha, beta =>
    match make_move m player board with
    | none => none
    | some b1 =>
      match search b1 alpha beta with
      | none => none
      | some (eval, b2) =>
        unpruned_min_loop search player ms b2 (MyPlayer.min minEval eval) alpha
          (MyPlayer.min beta eval)

/-- The unpruned exploration: the recursion of `minimax` with both `beta <= alpha` cutoffs
    removed, so that every legal move of every node is explored. -/
def unpruned_minimax : Nat → Board → Int → Int → Int → Option (Int × Board)
  | 0, board, player, _, _ => some (evaluate player board, board)
  | depth + 1, board, player, alpha, beta =>
    match is_game_over_move board with
    | none => none
    | some over =>
      if over ≠ 0 then some (evaluate player board, board)
      else
        match legal_moves player board with
        | none => none
        | some [] => none
        | some (size :: future_moves) =>
          match process_moves (size :: future_moves) size with
          | none => none
          | some moves =>
            if player ≠ 0 then
              unpruned_max_loop (fun b a be => unpruned_minimax depth b (opponent player) a be)
                player moves board INT_MIN alpha beta
            else
              unpruned_min_loop (fun b a be => unpruned_minimax depth b (opponent player) a be)
                player moves board INT_MAX alpha beta

/-! ## Example positions -/

/-- A well-formed board without any piece: nobody can move. -/
def blank_board : Board := fun i =>
  if validp i ≠ 0 then EMPTY else if 0 ≤ i ∧ i < 100 then OUTER else 0

/-- The position after the legal opening `56 66 76 77 34 86 88` (Black starts), White to
    move; `46`, `68` and `78` are White's legal moves. -/
def before_pass_board : Board := fun i =>
  if i = 34 ∨ i = 44 ∨ i = 45 ∨ i = 54 ∨ i = 55 ∨ i = 56 ∨ i = 66 ∨ i = 77 ∨ i = 88 then BLACK
  else if i = 76 ∨ i = 86 then WHITE
  else if validp i ≠ 0 then EMPTY else if 0 ≤ i ∧ i < 100 then OUTER else 0

/-- The position `before_pass_board` after White has played `68`: Black has no legal
    move, White has. -/
def forced_pass_board : Board := fun i =>
  if i = 34 ∨ i = 44 ∨ i = 45 ∨ i = 54 ∨ i = 55 ∨ i = 56 ∨ i = 66 ∨ i = 88 then BLACK
  else if i = 68 ∨ i = 76 ∨ i = 77 ∨ i = 86 then WHITE
  else if validp i ≠ 0 then EMPTY else if 0 ≤ i ∧ i < 100 then OUTER else 0

/-- Replays a game fragment: each `(move, player)` must be legal (`legalp`) on the board
    reached so far and is applied with `make_move`. -/
def play : List (Int × Int) → Board → Option Board
  | [], b => some b
  | (m, p) :: rest, b =>
    match legalp m p b with
    | some 1 =>
      match make_move m p b with
      | none => none
      | some b1 => play rest b1
    | _ => none

/-- The cells `0 .. 99` of a board, as a list. -/
def cells (b : Board) : List Int := (List.range 100).map (fun (i : Nat) => b i)

/-! ## Distributed coordinator -/

/-- The worker ranks `1 .. MPI_SIZE - 1`, as visited by the `for` loops of `bens_strategy`. -/
def worker_ranks (MPI_SIZE : Int) : List Int :=
  (List.range' 1 (MPI_SIZE - 1).toNat).map (fun (i : Nat) => (i : Int))

/-- The sends of the first branch of `bens_strategy` (fewer moves than workers): to every
    rank the count, then the whole list. A send is recorded as (destination rank, data). -/
def send_all (total_legal_moves : Int) (output_moves : List Int) :
    List Int → List (Int × List Int)
  | [] => []
  | j :: js =>
    (j, [total_legal_moves]) :: (j, output_moves) :: send_all total_legal_moves output_moves js

/-- The value of `num_moves` for rank `i` in the second branch of `bens_strategy`. -/
def chunk_size (MPI_SIZE moves_per_process remainder_moves i : Int) : Int :=
  if i = MPI_SIZE - 1 then moves_per_process + remainder_moves else moves_per_process

/-- The sends of the second branch of `bens_strategy`: to rank `i` the count `num_moves`,
    then `num_moves` ints starting at `&moves[current_index]`. `none` when the slice would
    leave the written part of `moves`. -/
def send_chunks (moves : List Int) (MPI_SIZE moves_per_process remainder_moves : Int) :
    List Int → Int → Option (List (Int × List Int))
  | [], _ => some []
  | i :: ranks, current_index =>
    if 0 ≤ current_index ∧ 0 ≤ chunk_size MPI_SIZE moves_per_process remainder_moves i ∧
        current_index.toNat
          + (chunk_size MPI_SIZE moves_per_process remainder_moves i).toNat ≤ moves.length then
      match send_chunks moves MPI_SIZE moves_per_process remainder_moves ranks
          (current_index + chunk_size MPI_SIZE moves_per_process remainder_moves i) with
      | none => none
      | some rest =>
        some ((i, [chunk_size MPI_SIZE moves_per_process remainder_moves i])
          :: (i, (moves.drop current_index.toNat).take
                (chunk_size MPI_SIZE moves_per_process remainder_moves i).toNat)
          :: rest)
    else none

/-- The distribution step of `bens_strategy`: all sends of the master, in order, for the
    buffer `moves` filled by `legal_moves`. Division by `MPI_SIZE - 1 = 0` has no result. -/
def bens_sends (MPI_SIZE : Int) (moves : List Int) : Option (List (Int × List Int)) :=
  match moves with
  | [] => none
  | total_legal_moves :: _ =>
    if total_legal_moves < MPI_SIZE - 1 then
      match process_moves moves total_legal_moves with
      | none => none
      | some output_moves =>
        some (send_all total_legal_moves output_moves (worker_ranks MPI_SIZE))
    else if MPI_SIZE - 1 = 0 then none
    else
      send_chunks moves MPI_SIZE (Int.tdiv total_legal_moves (MPI_SIZE - 1))
        (Int.tmod total_legal_moves (MPI_SIZE - 1)) (worker_ranks MPI_SIZE) 1

/-- The scoring loop of `run_worker` over the assigned moves. Every move is applied to a
    fresh copy of `current_board` and searched with `depth - 1 = 5`. -/
def worker_loop (my_colour : Int) (current_board : Board) :
    List Int → Int → Int → Option Int
  | [], best_move, _ => some best_move
  | m :: rest, best_move, best_score =>
    match make_move m my_colour current_board with
    | none => none
    | some temp_board =>
      match minimax 5 temp_board (opponent my_colour) INT_MIN INT_MAX with
      | none => none
      | some (score, _) =>
        if score > best_score then worker_loop my_colour current_board rest m score
        else worker_loop my_colour current_board rest best_move best_score

/-- One round of `run_worker`: the move it sends back for the received count `num_moves`
    and moves `ranks_moves`. -/
def run_worker (my_colour : Int) (current_board : Board) (num_moves : Int)
    (ranks_moves : List Int) : Option Int :=
  if num_moves ≠ 0 then
    if num_moves.toNat ≤ ranks_moves.length ∧ 0 ≤ num_moves then
      worker_loop my_colour current_board (ranks_moves.take num_moves.toNat) (-1) INT_MIN
    else none
  else some (-1)

/-- The chunk the partition rule assigns to worker `i` (1-based) out of `w` workers:
    the whole list when there are fewer moves than workers, else the slice
    `[(i-1)*q, i*q)` with `q = n / w`, the last worker taking everything from `(w-1)*q`. -/
def expected_chunk (ms : List Int) (w i : Nat) : List Int :=
  if ms.length < w then ms
  else if i = w then ms.drop ((w - 1) * (ms.length / w))
  else (ms.drop ((i - 1) * (ms.length / w))).take (ms.length / w)

/-- The sends that hand every worker of `ranks` the size of its chunk and then the chunk. -/
def expected_sends (ms : List Int) (w : Nat) : List Nat → List (Int × List Int)
  | [] => []
  | i :: ranks =>
    ((i : Int), [((expected_chunk ms w i).length : Int)])
      :: ((i : Int), expected_chunk ms w i) :: expected_sends ms w ranks

/-- The re-scoring loop of `bens_strategy` over the candidates `best_moves[i]`. The state
    is the triple `score`, `best_score`, `best_move`. Every candidate other than -1 is
    applied to a fresh copy of `current_board`, searched with depth 1, and assigned to
    `best_move` before the comparison; for a candidate -1 the statement
    `score == INT_MIN + 1;` changes nothing, so `score` keeps its previous value. -/
def bens_select (my_colour : Int) (current_board : Board) :
    List Int → Int → Int → Int → Option Int
  | [], _, _, best_move => some best_move
  | c :: rest, score, best_score, best_move =>
    if c ≠ -1 then
      match make_move c my_colour current_board with
      | none => none
      | some temp_board =>
        match minimax 1 temp_board (opponent my_colour) INT_MIN INT_MAX with
        | none => none
        | some (score1, _) =>
          if score1 > best_score then bens_select my_colour current_board rest score1 score1 c
          else bens_select my_colour current_board rest score1 best_score c
    else
      if score > best_score then bens_select my_colour current_board rest score score c
      else bens_select my_colour current_board rest score best_score best_move

/-- Source `bens_strategy`, given the replies `best_moves` received from the workers (one
    per rank, in rank order) and the indeterminate initial value `score0` of the local
    `score`. Returns the chosen move together with the messages sent to the workers. -/
def bens_strategy (MPI_SIZE my_colour : Int) (current_board : Board) (best_moves : List Int)
    (score0 : Int) : Option (Int × List (Int × List Int)) :=
  match legal_moves my_colour current_board with
  | none => none
  | some [] => none
  | some (total_legal_moves :: moves) =>
    match bens_sends MPI_SIZE (total_legal_moves :: moves) with
    | none => none
    | some sends =>
      if best_moves.length = (MPI_SIZE - 1).toNat then
        match bens_select my_colour current_board best_moves score0 INT_MIN (-1) with
        | none => none
        | some best_move =>
          if total_legal_moves = 0 then some (-1, sends) else some (best_move, sends)
      else none

/-- The replies of the workers to the sends of one round: rank by rank, `run_worker` on
    the count and the move list it was sent. -/
def worker_replies (my_colour : Int) (current_board : Board) :
    List (Int × List Int) → Option (List Int)
  | [] => some []
  | (_, [num_moves]) :: (_, ranks_moves) :: rest =>
    match run_worker my_colour current_board num_moves ranks_moves with
    | none => none
    | some best_move =>
      match worker_replies my_colour current_board rest with
      | none => none
      | some replies => some (best_move :: replies)
  | _ => none

/-- One full round: `bens_strategy` on the master, where every worker's reply is the
    value `run_worker` computes for what it is sent. -/
def bens_round (MPI_SIZE my_colour : Int) (current_board : Board) (score0 : Int) :
    Option (Int × List (Int × List Int)) :=
  match legal_moves my_colour current_board with
  | none => none
  | some moves =>
    match bens_sends MPI_SIZE moves with
    | none => none
    | some sends =>
      match worker_replies my_colour current_board sends with
      | none => none
      | some best_moves => bens_strategy MPI_SIZE my_colour current_board best_moves score0

/-! ## Move strings

A `char` buffer is the list of its bytes (as `Int`), terminator included. -/

/-- Conversion of an `int` to `char` (8 bits, two's complement). -/
def to_char (x : Int) : Int := (x + 128) % 256 - 128

/-- The string literal `"pass\n"`, with its terminating NUL. -/
def PASS : List Int := [112, 97, 115, 115, 10, 0]

/-- Library `strncpy(dest, src, n)`: the `n` bytes written to `dest`. -/
def strncpy (src : List Int) (n : Nat) : List Int := (src ++ List.replicate n 0).take n

/-- The reference `strcmp`: difference of the first differing bytes, read as
    `unsigned char`. The C standard only fixes the sign of the result. -/
def strcmp_bytes : List Int → List Int → Int
  | [], [] => 0
  | [], b :: _ => 0 - b % 256
  | a :: _, [] => a % 256
  | a :: s, b :: t =>
    if a ≠ b then a % 256 - b % 256 else if a = 0 then 0 else strcmp_bytes s t

/-- Source `get_move_string`: the four bytes written to `ms`. -/
def get_move_string (loc : Int) : List Int :=
  [to_char (Int.tdiv (loc - (9 + 2 * Int.tdiv loc 10)) 8 + 48),
   to_char (Int.tmod (loc - (9 + 2 * Int.tdiv loc 10)) 8 + 48), 10, 0]

/-- Source `get_loc`; `none` when the buffer has no second byte. -/
def get_loc (movestring : List Int) : Option Int :=
  match movestring with
  | c0 :: c1 :: _ => some (10 * ((c0 - 48) + 1) + (c1 - 48) + 1)
  | _ => none

/-- Source `gen_move_master`: the bytes written to `move` and the board afterwards.
    `MOVEBUFSIZE` is defined in `comms.h` and taken as a parameter; `best_moves` and
    `score0` are as in `bens_strategy`. -/
def gen_move_master (MOVEBUFSIZE : Nat) (MPI_SIZE my_colour : Int) (active_board : Board)
    (best_moves : List Int) (score0 : Int) : Option (List Int × Board) :=
  match bens_strategy MPI_SIZE my_colour active_board best_moves score0 with
  | none => none
  | some (loc, _) =>
    if loc = -1 then some (strncpy PASS MOVEBUFSIZE, active_board)
    else if 4 ≤ MOVEBUFSIZE then
      match make_move loc my_colour active_board with
      | none => none
      | some b1 => some (get_move_string loc, b1)
    else none

/-- Source `apply_opp_move`. `strcmp` is the C library function; the standard fixes only
    the sign of its result, so it is a parameter. -/
def apply_opp_move (strcmp : List Int → List Int → Int) (move : List Int) (my_colour : Int)
    (active_board : Board) : Option Board :=
  if strcmp move PASS = -1 then some active_board
  else
    match get_loc move with
    | none => none
    | some loc => make_move loc (opponent my_colour) active_board

/-! ## Further specification vocabulary -/

/-- The last candidate of a reply list that is not the pass sentinel -1. -/
def last_non_pass : List Int → Option Int
  | [] => none
  | c :: rest =>
    match last_non_pass rest with
    | some r => some r
    | none => if c ≠ -1 then some c else none

/-- The line of play that follows the first legal move at every ply reaches depth 0 or a
    finished game without a forced pass on the way. -/
def first_line : Nat → Board → Int → Bool
  | 0, _, _ => true
  | d + 1, b, p =>
    if is_game_over_move b = some 1 then true
    else
      match legal_moves p b with
      | some (_ :: m :: _) =>
        match make_move m p b with
        | some b1 => first_line d b1 (opponent p)
        | none => false
      | _ => false

/-- The sign with which a cell content `v` counts for player `p`. -/
def piece_sign (p v : Int) : Int :=
  if v = p then 1 else if v = opponent p then -1 else 0

/-- No interior cell is `EMPTY`. -/
def FullBoard (b : Board) : Prop :=
  ∀ i : Nat, i < 100 → validp (i : Int) ≠ 0 → b i ≠ EMPTY

instance (b : Board) : Decidable (FullBoard b) := by unfold FullBoard; infer_instance

/-- A full board on which every interior cell is black. -/
def full_black_board : Board := fun i =>
  if validp i ≠ 0 then BLACK else if 0 ≤ i ∧ i < 100 then OUTER else 0

/-- The boards reachable from the initial board by `make_move` calls with an interior cell
    (`validp`) and a player in BLACK/WHITE. -/
inductive Reachable : Board → Prop
  | init : Reachable initialise_board
  | step (b b1 : Board) (move player : Int) : Reachable b → validp move ≠ 0 →
      (player = BLACK ∨ player = WHITE) → make_move move player b = some b1 → Reachable b1

/-- The function obtained from `minimax` by deleting the minimising branch: every node
    runs the maximising loop. -/
def maximising_minimax : Nat → Board → Int → Int → Int → Option (Int × Board)
  | 0, board, player, _, _ => some (evaluate player board, board)
  | depth + 1, board, player, alpha, beta =>
    match is_game_over_move board with
    | none => none
    | some over =>
      if over ≠ 0 then some (evaluate player board, board)
      else
        match legal_moves player board with
        | none => none
        | some [] => none
        | some (size :: future_moves) =>
          match process_moves (size :: future_moves) size with
          | none => none
          | some moves =>
            minimax_max_loop (fun b a be => maximising_minimax depth b (opponent player) a be)
              player moves board INT_MIN alpha beta

/-- Source `minimax` with `depth` as the C `int` it is (the test `depth == 0`, the
    recursive call with `depth - 1`), the recursion bounded by `fuel`. For a depth
    `d >= 0` and more than `d` fuel it is `minimax d`. -/
def minimax_fuel : Nat → Int → Board → Int → Int → Int → Option (Int × Board)
  | 0, _, _, _, _, _ => none
  | fuel + 1, depth, board, player, alpha, beta =>
    if depth = 0 then some (evaluate player board, board)
    else
      match is_game_over_move board with
      | none => none
      | some over =>
        if over ≠ 0 then some (evaluate player board, board)
        else
          match legal_moves player board with
          | none => none
          | some [] => none
          | some (size :: future_moves) =>
            match process_moves (size :: future_moves) size with
            | none => none
            | some moves =>
              if player ≠ 0 then
                minimax_max_loop
                  (fun b a be => minimax_fuel fuel (depth - 1) b (opponent player) a be)
                  player moves board INT_MIN alpha beta
              else
                minimax_min_loop
                  (fun b a be => minimax_fuel fuel (depth - 1) b (opponent player) a be)
                  player moves board INT_MAX alpha beta

/-- The function `minimax_fuel` with the minimising branch deleted. -/
def maximising_minimax_fuel : Nat → Int → Board → Int → Int → Int → Option (Int × Board)
  | 0, _, _, _, _, _ => none
  | fuel + 1, depth, board, player, alpha, beta =>
    if depth = 0 then some (evaluate player board, board)
    else
      match is_game_over_move board with
      | none => none
      | some over =>
        if over ≠ 0 then some (evaluate player board, board)
        else
          match legal_moves player board with
          | none => none
          | some [] => none
          | some (size :: future_moves) =>
            match process_moves (size :: future_moves) size with
            | none => none
            | some moves =>
              minimax_max_loop
                (fun b a be => maximising_minimax_fuel fuel (depth - 1) b (opponent player) a be)
                player moves board INT_MIN alpha beta

/-! ## Basic facts -/

theorem validp_ne_zero_iff (m : Int) :
    validp m ≠ 0 ↔ 11 ≤ m ∧ m ≤ 88 ∧ 1 ≤ m % 10 ∧ m % 10 ≤ 8 := by
  unfold validp
  by_cases h : 11 ≤ m ∧ m ≤ 88
  · have h0 : (0 : Int) ≤ m := by omega
    have : Int.tmod m 10 = m % 10 := Int.tmod_eq_emod h0 (by norm_num)
    rw [this]
    split <;> rename_i h2 <;> simp <;> omega
  · split <;> rename_i h2 <;> simp <;> omega

theorem validp_eq_zero_iff (m : Int) :
    validp m = 0 ↔ ¬ (11 ≤ m ∧ m ≤ 88 ∧ 1 ≤ m % 10 ∧ m % 10 ≤ 8) := by
  rw [← validp_ne_zero_iff]; simp

theorem validp_cases (m : Int) : validp m = 0 ∨ validp m = 1 := by
  unfold validp; split <;> simp

theorem mem_dirs (d : Int) :
    d ∈ ALLDIRECTIONS ↔ d = -11 ∨ d = -10 ∨ d = -9 ∨ d = -1 ∨ d = 1 ∨ d = 9 ∨ d = 10 ∨ d = 11 := by
  simp [ALLDIRECTIONS]

theorem rd_some (b : Board) (i : Int) (h0 : 0 ≤ i) (h1 : i < 100) : rd b i = some (b i) := by
  simp [rd, BOARDSIZE, h0, h1]

theorem wr_some (b : Board) (i v : Int) (h0 : 0 ≤ i) (h1 : i < 100) :
    wr b i v = some (fun j => if j = i then v else b j) := by
  simp [wr, BOARDSIZE, h0, h1]

/-! ## The bracket search -/

theorem validp_range (m : Int) (h : validp m ≠ 0) : 0 ≤ m ∧ m < 100 := by
  rw [validp_ne_zero_iff] at h; omega

theorem find_bracket_loop_step (fuel : Nat) (sq d p : Int) (b : Board) :
    find_bracket_loop (fuel + 1) sq d p b =
      if validp sq ≠ 0 ∧ b sq = opponent p then find_bracket_loop fuel (sq + d) d p b
      else some sq := by
  by_cases hv : validp sq ≠ 0
  · have hr := validp_range sq hv
    simp only [find_bracket_loop, rd_some b sq hr.1 hr.2, hv]
    by_cases ho : b sq = opponent p <;> simp [ho]
  · simp only [find_bracket_loop, hv]
    simp

theorem find_bracket_loop_spec (d p : Int) (b : Board) :
    ∀ (fuel : Nat) (sq r : Int), find_bracket_loop fuel sq d p b = some r →
      ∃ k : Nat, r = sq + k * d ∧
        (∀ j : Nat, j < k → validp (sq + j * d) ≠ 0 ∧ b (sq + j * d) = opponent p) ∧
        ¬ (validp r ≠ 0 ∧ b r = opponent p) := by
  intro fuel
  induction fuel with
  | zero => intro sq r h; simp [find_bracket_loop] at h
  | succ n ih =>
    intro sq r h
    rw [find_bracket_loop_step] at h
    by_cases hc : validp sq ≠ 0 ∧ b sq = opponent p
    · rw [if_pos hc] at h
      obtain ⟨k, hk, hrun, hstop⟩ := ih (sq + d) r h
      refine ⟨k + 1, ?_, ?_, hstop⟩
      · rw [hk]; push_cast; ring
      · intro j hj
        cases j with
        | zero => simpa using hc
        | succ i =>
          have := hrun i (by omega)
          have e : sq + ((i + 1 : Nat) : Int) * d = sq + d + (i : Int) * d := by push_cast; ring
          rw [e]; exact this
    · rw [if_neg hc] at h
      have hr : r = sq := by simpa using h.symm
      subst hr
      exact ⟨0, by simp, by intro j hj; omega, hc⟩

theorem find_bracket_loop_of_run (d p : Int) (b : Board) :
    ∀ (k fuel : Nat) (sq : Int), k < fuel →
      (∀ j : Nat, j < k → validp (sq + j * d) ≠ 0 ∧ b (sq + j * d) = opponent p) →
      ¬ (validp (sq + k * d) ≠ 0 ∧ b (sq + k * d) = opponent p) →
      find_bracket_loop fuel sq d p b = some (sq + k * d) := by
  intro k
  induction k with
  | zero =>
    intro fuel sq hf _ hstop
    obtain ⟨n, rfl⟩ : ∃ n, fuel = n + 1 := ⟨fuel - 1, by omega⟩
    rw [find_bracket_loop_step]
    have hstop2 : ¬ (validp sq ≠ 0 ∧ b sq = opponent p) := by simpa using hstop
    rw [if_neg hstop2]; simp
  | succ i ih =>
    intro fuel sq hf hrun hstop
    obtain ⟨n, rfl⟩ : ∃ n, fuel = n + 1 := ⟨fuel - 1, by omega⟩
    rw [find_bracket_loop_step]
    have h0 : validp sq ≠ 0 ∧ b sq = opponent p := by simpa using hrun 0 (by omega)
    rw [if_pos h0]
    have e : ∀ j : Nat, sq + d + (j : Int) * d = sq + ((j + 1 : Nat) : Int) * d := by
      intro j; push_cast; ring
    rw [ih n (sq + d) (by omega)]
    · rw [e]
    · intro j hj; rw [e]; exact hrun (j + 1) (by omega)
    · rw [e]; exact hstop

theorem find_bracket_loop_total_pos (d p : Int) (b : Board) (hd : 1 ≤ d) :
    ∀ (fuel : Nat) (sq : Int), 0 < fuel → (validp sq ≠ 0 → 89 - sq < fuel) →
      ∃ r, find_bracket_loop fuel sq d p b = some r := by
  intro fuel
  induction fuel with
  | zero => intro sq h; omega
  | succ n ih =>
    intro sq _ hm
    rw [find_bracket_loop_step]
    by_cases hc : validp sq ≠ 0 ∧ b sq = opponent p
    · rw [if_pos hc]
      have h1 := hm hc.1
      have h2 := (validp_ne_zero_iff sq).1 hc.1
      apply ih
      · omega
      · intro hv
        have h3 := (validp_ne_zero_iff _).1 hv
        omega
    · rw [if_neg hc]; exact ⟨sq, rfl⟩

theorem find_bracket_loop_total_neg (d p : Int) (b : Board) (hd : d ≤ -1) :
    ∀ (fuel : Nat) (sq : Int), 0 < fuel → (validp sq ≠ 0 → sq - 10 < fuel) →
      ∃ r, find_bracket_loop fuel sq d p b = some r := by
  intro fuel
  induction fuel with
  | zero => intro sq h; omega
  | succ n ih =>
    intro sq _ hm
    rw [find_bracket_loop_step]
    by_cases hc : validp sq ≠ 0 ∧ b sq = opponent p
    · rw [if_pos hc]
      have h1 := hm hc.1
      have h2 := (validp_ne_zero_iff sq).1 hc.1
      apply ih
      · omega
      · intro hv
        have h3 := (validp_ne_zero_iff _).1 hv
        omega
    · rw [if_neg hc]; exact ⟨sq, rfl⟩

theorem find_bracket_loop_total (sq d p : Int) (b : Board) (hd : d ≠ 0) :
    ∃ r, find_bracket_loop 100 sq d p b = some r := by
  rcases lt_or_gt_of_ne hd with h | h
  · apply find_bracket_loop_total_neg d p b (by omega) 100 sq (by norm_num)
    intro hv
    have := (validp_ne_zero_iff sq).1 hv
    push_cast; omega
  · apply find_bracket_loop_total_pos d p b (by omega) 100 sq (by norm_num)
    intro hv
    have := (validp_ne_zero_iff sq).1 hv
    push_cast; omega

/-! ## Geometry of the bordered grid -/

theorem dir_ne_zero (d : Int) (hd : d ∈ ALLDIRECTIONS) : d ≠ 0 := by
  rw [mem_dirs] at hd; omega

theorem neighbour_in_range (move d : Int) (hv : validp move ≠ 0) (hd : d ∈ ALLDIRECTIONS) :
    0 ≤ move + d ∧ move + d < 100 := by
  rw [validp_ne_zero_iff] at hv
  rw [mem_dirs] at hd
  omega

/-- Walking from an interior cell in one direction leaves the interior within eight steps. -/
theorem ray_leaves_interior (move d : Int) (hv : validp move ≠ 0) (hd : d ∈ ALLDIRECTIONS)
    (h : ∀ j : Nat, 2 ≤ j → j ≤ 8 → validp (move + j * d) ≠ 0) : False := by
  have h2 := (validp_ne_zero_iff _).1 (h 2 (by omega) (by omega))
  have h3 := (validp_ne_zero_iff _).1 (h 3 (by omega) (by omega))
  have h4 := (validp_ne_zero_iff _).1 (h 4 (by omega) (by omega))
  have h5 := (validp_ne_zero_iff _).1 (h 5 (by omega) (by omega))
  have h6 := (validp_ne_zero_iff _).1 (h 6 (by omega) (by omega))
  have h7 := (validp_ne_zero_iff _).1 (h 7 (by omega) (by omega))
  have h8 := (validp_ne_zero_iff _).1 (h 8 (by omega) (by omega))
  rw [validp_ne_zero_iff] at hv
  rw [mem_dirs] at hd
  push_cast at h2 h3 h4 h5 h6 h7 h8
  rcases hd with rfl | rfl | rfl | rfl | rfl | rfl | rfl | rfl <;> omega

/-- Two different directions never meet again within eight steps. -/
theorem rays_disjoint (d e : Int) (hd : d ∈ ALLDIRECTIONS) (he : e ∈ ALLDIRECTIONS)
    (hne : d ≠ e) (i j : Nat) (hi : 1 ≤ i) (hi8 : i ≤ 8) (hj : 1 ≤ j) (hj8 : j ≤ 8) :
    (i : Int) * d ≠ (j : Int) * e := by
  rw [mem_dirs] at hd he
  rcases hd with rfl | rfl | rfl | rfl | rfl | rfl | rfl | rfl <;>
    rcases he with rfl | rfl | rfl | rfl | rfl | rfl | rfl | rfl <;>
    first
      | exact absurd rfl hne
      | omega

theorem flips_length (b : Board) (move d p : Int) (k : Nat) (hv : validp move ≠ 0)
    (hd : d ∈ ALLDIRECTIONS) (h : Flips b move d p k) : k ≤ 6 := by
  by_contra hk
  apply ray_leaves_interior move d hv hd
  intro j hj2 hj8
  obtain ⟨_, _, hrun, hendv, _⟩ := h
  by_cases hjk : j ≤ k
  · exact (hrun j hj2 hjk).1
  · have : j = k + 1 := by omega
    rw [this]; exact hendv

theorem flips_unique (b : Board) (move d p : Int) (k k' : Nat) (hp : opponent p ≠ p)
    (h : Flips b move d p k) (h' : Flips b move d p k') : k = k' := by
  obtain ⟨h1, _, hrun, _, hend⟩ := h
  obtain ⟨h1', _, hrun', _, hend'⟩ := h'
  rcases Nat.lt_trichotomy k k' with hlt | heq | hgt
  · have := (hrun' (k + 1) (by omega) (by omega)).2
    rw [hend] at this; exact absurd this.symm hp
  · exact heq
  · have := (hrun (k' + 1) (by omega) (by omega)).2
    rw [hend'] at this; exact absurd this.symm hp

/-! ## `find_bracket_piece` and `would_flip` -/

theorem find_bracket_piece_eq (sq d p r : Int) (b : Board)
    (h : find_bracket_loop 100 sq d p b = some r) :
    find_bracket_piece sq d p b = some (if validp r ≠ 0 ∧ b r = p then r else 0) := by
  unfold find_bracket_piece
  rw [h]
  dsimp only
  by_cases hv : validp r ≠ 0
  · have hr := validp_range r hv
    rw [if_pos hv, rd_some b r hr.1 hr.2]
    dsimp only
    by_cases hb : b r = p
    · rw [if_pos hb, if_pos ⟨hv, hb⟩]
    · rw [if_neg hb, if_neg (fun hc => hb hc.2)]
  · rw [if_neg hv, if_neg (fun hc => hv hc.1)]

theorem would_flip_eq (move d p : Int) (b : Board) (hv : validp move ≠ 0)
    (hd : d ∈ ALLDIRECTIONS) :
    would_flip move d p b =
      if b (move + d) = opponent p then find_bracket_piece (move + d + d) d p b else some 0 := by
  have hr := neighbour_in_range move d hv hd
  unfold would_flip
  rw [rd_some b _ hr.1 hr.2]

theorem would_flip_total (move d p : Int) (b : Board) (hv : validp move ≠ 0)
    (hd : d ∈ ALLDIRECTIONS) : ∃ w, would_flip move d p b = some w := by
  rw [would_flip_eq move d p b hv hd]
  by_cases ho : b (move + d) = opponent p
  · rw [if_pos ho]
    obtain ⟨r, hr⟩ := find_bracket_loop_total (move + d + d) d p b (dir_ne_zero d hd)
    exact ⟨_, find_bracket_piece_eq _ _ _ _ _ hr⟩
  · rw [if_neg ho]; exact ⟨0, rfl⟩

theorem would_flip_of_flips (move d p : Int) (b : Board) (k : Nat) (hv : validp move ≠ 0)
    (hd : d ∈ ALLDIRECTIONS) (hp : opponent p ≠ p) (h : Flips b move d p k) :
    would_flip move d p b = some (move + (k + 1 : Nat) * d) := by
  have hk6 := flips_length b move d p k hv hd h
  obtain ⟨h1, hfirst, hrun, hendv, hend⟩ := h
  rw [would_flip_eq move d p b hv hd, if_pos hfirst]
  have e : ∀ j : Nat, move + d + d + (j : Int) * d = move + ((j + 2 : Nat) : Int) * d := by
    intro j; push_cast; ring
  have hloop : find_bracket_loop 100 (move + d + d) d p b
      = some (move + d + d + ((k - 1 : Nat) : Int) * d) := by
    apply find_bracket_loop_of_run d p b (k - 1) 100 (move + d + d) (by omega)
    · intro j hj; rw [e]; exact hrun (j + 2) (by omega) (by omega)
    · rw [e]
      have : k - 1 + 2 = k + 1 := by omega
      rw [this, hend]
      intro hc; exact hp hc.2.symm
  rw [find_bracket_piece_eq _ _ _ _ _ hloop, e]
  have : k - 1 + 2 = k + 1 := by omega
  rw [this, if_pos ⟨hendv, hend⟩]

theorem would_flip_nonzero (move d p w : Int) (b : Board) (hv : validp move ≠ 0)
    (hd : d ∈ ALLDIRECTIONS) (h : would_flip move d p b = some w) (hw : w ≠ 0) :
    ∃ k : Nat, Flips b move d p k ∧ w = move + (k + 1 : Nat) * d := by
  rw [would_flip_eq move d p b hv hd] at h
  by_cases ho : b (move + d) = opponent p
  · rw [if_pos ho] at h
    obtain ⟨r, hr⟩ := find_bracket_loop_total (move + d + d) d p b (dir_ne_zero d hd)
    rw [find_bracket_piece_eq _ _ _ _ _ hr] at h
    obtain ⟨k, hk, hrun, _⟩ := find_bracket_loop_spec d p b 100 _ r hr
    by_cases hc : validp r ≠ 0 ∧ b r = p
    · rw [if_pos hc] at h
      have hwr : w = r := by simpa using h.symm
      have e : r = move + ((k + 1 + 1 : Nat) : Int) * d := by rw [hk]; push_cast; ring
      refine ⟨k + 1, ⟨by omega, ho, ?_, ?_, ?_⟩, ?_⟩
      · intro j hj2 hjk
        have := hrun (j - 2) (by omega)
        have e2 : move + d + d + ((j - 2 : Nat) : Int) * d = move + (j : Int) * d := by
          have : ((j - 2 : Nat) : Int) = (j : Int) - 2 := by omega
          rw [this]; ring
        rw [e2] at this; exact this
      · rw [← e]; exact hc.1
      · rw [← e]; exact hc.2
      · rw [hwr, e]
    · rw [if_neg hc] at h
      exact absurd (by simpa using h.symm) hw
  · rw [if_neg ho] at h
    exact absurd (by simpa using h.symm) hw

theorem would_flip_zero (move d p : Int) (b : Board) (k : Nat) (hv : validp move ≠ 0)
    (hd : d ∈ ALLDIRECTIONS) (hp : opponent p ≠ p) (h : would_flip move d p b = some 0) :
    ¬ Flips b move d p k := by
  intro hf
  rw [would_flip_of_flips move d p b k hv hd hp hf] at h
  have h1 := (validp_ne_zero_iff _).1 hf.2.2.2.1
  have : move + ((k + 1 : Nat) : Int) * d = 0 := by simpa using h
  omega

/-! ## Well-formed boards -/

theorem opponent_ne_self (p : Int) (hp : p = BLACK ∨ p = WHITE) : opponent p ≠ p := by
  rcases hp with rfl | rfl <;> decide

theorem opponent_player (p : Int) (hp : p = BLACK ∨ p = WHITE) :
    opponent p = BLACK ∨ opponent p = WHITE := by
  rcases hp with rfl | rfl
  · right; rfl
  · left; rfl

theorem wf_cell (b : Board) (hwf : WellFormed b) (i : Int) (h0 : 0 ≤ i) (h1 : i < 100) :
    if validp i ≠ 0 then (b i = EMPTY ∨ b i = BLACK ∨ b i = WHITE) else b i = OUTER := by
  have h := hwf i.toNat (by omega)
  have e : ((i.toNat : Nat) : Int) = i := Int.toNat_of_nonneg h0
  rw [e] at h
  exact h

theorem wf_piece_valid (b : Board) (hwf : WellFormed b) (i : Int) (h0 : 0 ≤ i) (h1 : i < 100)
    (hb : b i = BLACK ∨ b i = WHITE) : validp i ≠ 0 := by
  have h := wf_cell b hwf i h0 h1
  by_cases hv : validp i ≠ 0
  · exact hv
  · rw [if_neg hv] at h
    rcases hb with hb | hb <;> rw [hb] at h <;> exact absurd h (by decide)

/-- On a well-formed board a chain of pieces that starts next to an interior cell stays
    inside the interior. -/
theorem wf_chain_valid (b : Board) (hwf : WellFormed b) (move d : Int) (hv : validp move ≠ 0)
    (hd : d ∈ ALLDIRECTIONS) (n : Nat)
    (h : ∀ j : Nat, 1 ≤ j → j ≤ n → (b (move + j * d) = BLACK ∨ b (move + j * d) = WHITE)) :
    ∀ j : Nat, j ≤ n → validp (move + j * d) ≠ 0 := by
  intro j
  induction j with
  | zero => intro _; simpa using hv
  | succ i ih =>
    intro hi
    have hprev := ih (by omega)
    have hr := neighbour_in_range _ d hprev hd
    have e : move + (i : Int) * d + d = move + ((i + 1 : Nat) : Int) * d := by push_cast; ring
    rw [e] at hr
    exact wf_piece_valid b hwf _ hr.1 hr.2 (h (i + 1) (by omega) hi)

theorem flips_of_brackets (b : Board) (hwf : WellFormed b) (move d p : Int) (k : Nat)
    (hv : validp move ≠ 0) (hd : d ∈ ALLDIRECTIONS) (hp : p = BLACK ∨ p = WHITE)
    (h : Brackets b move d p k) : Flips b move d p k := by
  obtain ⟨h1, hrun, hend⟩ := h
  have hchain := wf_chain_valid b hwf move d hv hd (k + 1) (by
    intro j hj1 hjk
    by_cases hle : j ≤ k
    · rw [hrun j hj1 hle]; exact opponent_player p hp
    · have : j = k + 1 := by omega
      rw [this, hend]; exact hp)
  refine ⟨h1, ?_, ?_, hchain (k + 1) (le_refl _), hend⟩
  · simpa using hrun 1 (le_refl _) h1
  · intro j hj2 hjk
    exact ⟨hchain j (by omega), hrun j (by omega) hjk⟩

theorem brackets_of_flips (b : Board) (move d p : Int) (k : Nat) (h : Flips b move d p k) :
    Brackets b move d p k := by
  obtain ⟨h1, hfirst, hrun, _, hend⟩ := h
  refine ⟨h1, ?_, hend⟩
  intro j hj1 hjk
  by_cases hj : j = 1
  · subst hj; simpa using hfirst
  · exact (hrun j (by omega) hjk).2

/-! ## `legalp` -/

theorem legalp_loop_spec (move p : Int) (b : Board) (hv : validp move ≠ 0) :
    ∀ (ds : List Int) (i : Nat), (∀ d ∈ ds, d ∈ ALLDIRECTIONS) →
      ∃ r, legalp_loop move p b ds i = some r ∧ r ≤ i + ds.length ∧
        (r = i + ds.length ↔ ∀ d ∈ ds, would_flip move d p b = some 0) := by
  intro ds
  induction ds with
  | nil => intro i _; exact ⟨i, rfl, by simp, by simp⟩
  | cons d ds ih =>
    intro i hds
    obtain ⟨w, hw⟩ := would_flip_total move d p b hv (hds d (List.mem_cons_self _ _))
    unfold legalp_loop
    rw [hw]
    dsimp only
    by_cases hw0 : w = 0
    · rw [if_pos hw0]
      obtain ⟨r, hr, hle, hiff⟩ := ih (i + 1) (fun e he => hds e (List.mem_cons_of_mem _ he))
      refine ⟨r, hr, by simp only [List.length_cons]; omega, ?_⟩
      constructor
      · intro h e he
        rcases List.mem_cons.1 he with rfl | he
        · rw [hw, hw0]
        · exact (hiff.1 (by simp only [List.length_cons] at h; omega)) e he
      · intro h
        have := hiff.2 (fun e he => h e (List.mem_cons_of_mem _ he))
        simp only [List.length_cons]; omega
    · rw [if_neg hw0]
      refine ⟨i, rfl, by omega, ?_⟩
      constructor
      · intro h; simp only [List.length_cons] at h; omega
      · intro h
        have := h d (List.mem_cons_self _ _)
        rw [hw] at this
        exact absurd (by simpa using this) hw0

theorem legalp_value (move p : Int) (b : Board) :
    legalp move p b = some 0 ∨ legalp move p b = some 1 := by
  unfold legalp
  by_cases hv : validp move = 0
  · rw [if_pos hv]; left; rfl
  · rw [if_neg hv]
    have hr := validp_range move hv
    rw [rd_some b move hr.1 hr.2]
    dsimp only
    by_cases he : b move = EMPTY
    · rw [if_pos he]
      obtain ⟨r, hr, _, _⟩ := legalp_loop_spec move p b hv ALLDIRECTIONS 0 (fun _ h => h)
      rw [hr]
      dsimp only
      by_cases h8 : r = 8
      · rw [if_pos h8]; left; rfl
      · rw [if_neg h8]; right; rfl
    · rw [if_neg he]; left; rfl

theorem legalp_eq_one_iff (move p : Int) (b : Board) (hp : opponent p ≠ p) :
    legalp move p b = some 1 ↔
      validp move ≠ 0 ∧ b move = EMPTY ∧ ∃ d ∈ ALLDIRECTIONS, ∃ k : Nat, Flips b move d p k := by
  unfold legalp
  by_cases hv : validp move = 0
  · rw [if_pos hv]
    constructor
    · intro h; simp at h
    · intro h; exact absurd hv h.1
  · rw [if_neg hv]
    have hr := validp_range move hv
    rw [rd_some b move hr.1 hr.2]
    dsimp only
    by_cases he : b move = EMPTY
    · rw [if_pos he]
      obtain ⟨r, hr, hle, hiff⟩ := legalp_loop_spec move p b hv ALLDIRECTIONS 0 (fun _ h => h)
      rw [hr]
      dsimp only
      have hlen : ALLDIRECTIONS.length = 8 := rfl
      by_cases h8 : r = 8
      · rw [if_pos h8]
        constructor
        · intro h; simp at h
        · rintro ⟨_, _, d, hd, k, hk⟩
          have hz := hiff.1 (by rw [hlen]; omega) d hd
          exact absurd hk (would_flip_zero move d p b k hv hd hp hz)
      · rw [if_neg h8]
        refine ⟨fun _ => ⟨hv, he, ?_⟩, fun _ => rfl⟩
        by_contra hno
        apply h8
        have : r = 0 + ALLDIRECTIONS.length := by
          apply hiff.2
          intro d hd
          obtain ⟨w, hw⟩ := would_flip_total move d p b hv hd
          by_cases hw0 : w = 0
          · rw [hw, hw0]
          · obtain ⟨k, hk, _⟩ := would_flip_nonzero move d p w b hv hd hw hw0
            exact absurd ⟨d, hd, k, hk⟩ hno
        rw [this, hlen]
    · rw [if_neg he]
      constructor
      · intro h; simp at h
      · intro h; exact absurd h.2.1 he

theorem validp_eq_one_iff (m : Int) : validp m = 1 ↔ validp m ≠ 0 := by
  rcases validp_cases m with h | h <;> rw [h] <;> decide

/-- C1. On a well-formed board, for a player in BLACK/WHITE and any integer move, `legalp`
    returns 1 exactly when `validp move` holds, the cell is `EMPTY`, and some direction of
    `ALLDIRECTIONS` brackets a run of `k >= 1` opponent pieces closed by a piece of the
    player; in every other case it returns 0. A direction whose adjacent cell is not an
    opponent piece is rejected by `would_flip`. -/
theorem legalp_iff_bracket (b : Board) (p move : Int) (hwf : WellFormed b)
    (hp : p = BLACK ∨ p = WHITE) :
    (legalp move p b = some 1 ↔
      validp move = 1 ∧ b move = EMPTY ∧
        ∃ d ∈ ALLDIRECTIONS, ∃ k : Nat, Brackets b move d p k) ∧
    (¬ (validp move = 1 ∧ b move = EMPTY ∧
        ∃ d ∈ ALLDIRECTIONS, ∃ k : Nat, Brackets b move d p k) →
      legalp move p b = some 0) ∧
    (∀ d ∈ ALLDIRECTIONS, validp move = 1 → b (move + d) ≠ opponent p →
      would_flip move d p b = some 0 ∧ ∀ k : Nat, ¬ Brackets b move d p k) := by
  have hiff : legalp move p b = some 1 ↔
      validp move = 1 ∧ b move = EMPTY ∧
        ∃ d ∈ ALLDIRECTIONS, ∃ k : Nat, Brackets b move d p k := by
    rw [legalp_eq_one_iff move p b (opponent_ne_self p hp), validp_eq_one_iff]
    constructor
    · rintro ⟨hv, he, d, hd, k, hk⟩
      exact ⟨hv, he, d, hd, k, brackets_of_flips b move d p k hk⟩
    · rintro ⟨hv, he, d, hd, k, hk⟩
      exact ⟨hv, he, d, hd, k, flips_of_brackets b hwf move d p k hv hd hp hk⟩
  refine ⟨hiff, ?_, ?_⟩
  · intro hno
    rcases legalp_value move p b with h | h
    · exact h
    · exact absurd (hiff.1 h) hno
  · intro d hd hv hadj
    rw [validp_eq_one_iff] at hv
    refine ⟨?_, ?_⟩
    · rw [would_flip_eq move d p b hv hd, if_neg hadj]
    · rintro k ⟨h1, hrun, _⟩
      apply hadj
      simpa using hrun 1 (le_refl _) h1

theorem legalp_iff_bracket_witness :
    WellFormed initialise_board ∧ (BLACK = BLACK ∨ BLACK = WHITE) ∧
    ((legalp 34 BLACK initialise_board = some 1 ↔
      validp 34 = 1 ∧ initialise_board 34 = EMPTY ∧
        ∃ d ∈ ALLDIRECTIONS, ∃ k : Nat, Brackets initialise_board 34 d BLACK k) ∧
    (¬ (validp 34 = 1 ∧ initialise_board 34 = EMPTY ∧
        ∃ d ∈ ALLDIRECTIONS, ∃ k : Nat, Brackets initialise_board 34 d BLACK k) →
      legalp 34 BLACK initialise_board = some 0) ∧
    (∀ d ∈ ALLDIRECTIONS, validp 34 = 1 → initialise_board (34 + d) ≠ opponent BLACK →
      would_flip 34 d BLACK initialise_board = some 0 ∧
        ∀ k : Nat, ¬ Brackets initialise_board 34 d BLACK k)) :=
  ⟨by decide, by decide, legalp_iff_bracket initialise_board BLACK 34 (by decide) (by decide)⟩

/-! ## `legal_moves` -/

theorem mem_scan_squares (m : Int) : m ∈ scan_squares ↔ 11 ≤ m ∧ m ≤ 88 := by
  unfold scan_squares
  rw [List.mem_map]
  constructor
  · rintro ⟨k, hk, rfl⟩
    rw [List.mem_range] at hk
    omega
  · intro h
    refine ⟨(m - 11).toNat, ?_, ?_⟩
    · rw [List.mem_range]; omega
    · omega

theorem scan_squares_ascending : scan_squares.Pairwise (fun x y => x < y) := by
  unfold scan_squares
  apply List.Pairwise.map _ _ (List.pairwise_lt_range 78)
  intro x y hxy
  omega

theorem scan_valid_count :
    (scan_squares.filter (fun m => decide (validp m ≠ 0))).length = 64 := by decide

theorem legal_moves_loop_eq (p : Int) (b : Board) :
    ∀ (l acc : List Int),
      (acc ++ l.filter (fun m => decide (legalp m p b = some 1))).length ≤ 64 →
      legal_moves_loop p b l acc
        = some (acc ++ l.filter (fun m => decide (legalp m p b = some 1))) := by
  intro l
  induction l with
  | nil => intro acc _; simp [legal_moves_loop]
  | cons m rest ih =>
    intro acc hlen
    unfold legal_moves_loop
    rcases legalp_value m p b with h | h
    · rw [h]
      dsimp only
      rw [if_neg (by simp)]
      have hf : (m :: rest).filter (fun m => decide (legalp m p b = some 1))
          = rest.filter (fun m => decide (legalp m p b = some 1)) := by
        rw [List.filter_cons_of_neg]; simp [h]
      rw [hf] at hlen ⊢
      exact ih acc hlen
    · rw [h]
      dsimp only
      have hf : (m :: rest).filter (fun m => decide (legalp m p b = some 1))
          = m :: rest.filter (fun m => decide (legalp m p b = some 1)) := by
        rw [List.filter_cons_of_pos]; simp [h]
      rw [hf] at hlen ⊢
      rw [if_pos (by decide)]
      have hlt : acc.length + 1 < LEGALMOVSBUFSIZE := by
        simp only [List.length_append, List.length_cons] at hlen
        unfold LEGALMOVSBUFSIZE; omega
      rw [if_pos hlt]
      have e : acc ++ m :: rest.filter (fun m => decide (legalp m p b = some 1))
          = (acc ++ [m]) ++ rest.filter (fun m => decide (legalp m p b = some 1)) := by simp
      rw [e] at hlen ⊢
      exact ih (acc ++ [m]) hlen

theorem legal_filter_length (p : Int) (b : Board) :
    (scan_squares.filter (fun m => decide (legalp m p b = some 1))).length ≤ 64 := by
  rw [← scan_valid_count]
  apply List.Sublist.length_le
  apply List.monotone_filter_right
  intro m hm
  have h1 : legalp m p b = some 1 := by simpa using hm
  have hv : validp m ≠ 0 := by
    intro h0
    unfold legalp at h1
    rw [if_pos h0] at h1
    simp at h1
  simpa using hv

/-- The list `legal_moves` writes: the count, then the legal squares in scan order. -/
theorem legal_moves_eq (p : Int) (b : Board) :
    legal_moves p b =
      some ((((scan_squares.filter (fun m => decide (legalp m p b = some 1))).length : Nat) : Int)
        :: scan_squares.filter (fun m => decide (legalp m p b = some 1))) := by
  unfold legal_moves
  rw [legal_moves_loop_eq p b scan_squares [] (by simpa using legal_filter_length p b)]
  simp

theorem legalp_nonzero_iff (m p : Int) (b : Board) :
    (∃ v, legalp m p b = some v ∧ v ≠ 0) ↔ legalp m p b = some 1 := by
  constructor
  · rintro ⟨v, hv, hne⟩
    rcases legalp_value m p b with h | h
    · rw [h] at hv
      exact absurd (by simpa using hv.symm) hne
    · exact h
  · intro h; exact ⟨1, h, by decide⟩

/-- C2. On a well-formed board, for a player in BLACK/WHITE, `legal_moves` writes the count
    `n` in `moves[0]` and in `moves[1..n]` exactly the cells `11 <= m <= 88` with
    `legalp` non-zero, in strictly ascending order (so each once); every listed cell is an
    `EMPTY` interior cell, and `n <= 64`, so the 65-entry buffer is not overrun. -/
theorem legal_moves_spec (b : Board) (p : Int) (_hwf : WellFormed b)
    (hp : p = BLACK ∨ p = WHITE) :
    ∃ ms : List Int, legal_moves p b = some ((ms.length : Int) :: ms) ∧
      (∀ m : Int, m ∈ ms ↔ (11 ≤ m ∧ m ≤ 88 ∧ ∃ v, legalp m p b = some v ∧ v ≠ 0)) ∧
      ms.Pairwise (fun x y => x < y) ∧ ms.Nodup ∧
      (∀ m ∈ ms, b m = EMPTY ∧ validp m = 1) ∧
      ms.length ≤ 64 ∧ ms.length + 1 ≤ LEGALMOVSBUFSIZE := by
  refine ⟨scan_squares.filter (fun m => decide (legalp m p b = some 1)),
    legal_moves_eq p b, ?_, ?_, ?_, ?_, legal_filter_length p b, ?_⟩
  · intro m
    rw [List.mem_filter, mem_scan_squares, legalp_nonzero_iff]
    simp only [decide_eq_true_eq]
    tauto
  · exact List.Pairwise.filter _ scan_squares_ascending
  · have h := List.Pairwise.filter (fun m => decide (legalp m p b = some 1))
      scan_squares_ascending
    exact h.imp (fun hxy => ne_of_lt hxy)
  · intro m hm
    rw [List.mem_filter] at hm
    have h1 : legalp m p b = some 1 := by simpa using hm.2
    have := (legalp_eq_one_iff m p b (opponent_ne_self p hp)).1 h1
    exact ⟨this.2.1, (validp_eq_one_iff m).2 this.1⟩
  · have := legal_filter_length p b
    unfold LEGALMOVSBUFSIZE; omega

theorem legal_moves_spec_witness :
    WellFormed initialise_board ∧ (BLACK = BLACK ∨ BLACK = WHITE) ∧
    ∃ ms : List Int, legal_moves BLACK initialise_board = some ((ms.length : Int) :: ms) ∧
      (∀ m : Int, m ∈ ms ↔
        (11 ≤ m ∧ m ≤ 88 ∧ ∃ v, legalp m BLACK initialise_board = some v ∧ v ≠ 0)) ∧
      ms.Pairwise (fun x y => x < y) ∧ ms.Nodup ∧
      (∀ m ∈ ms, initialise_board m = EMPTY ∧ validp m = 1) ∧
      ms.length ≤ 64 ∧ ms.length + 1 ≤ LEGALMOVSBUFSIZE :=
  ⟨by decide, by decide, legal_moves_spec initialise_board BLACK (by decide) (by decide)⟩

/-! ## `make_flips` and `make_move` -/

theorem make_flips_loop_spec (d p : Int) (hd : d ≠ 0) :
    ∀ (n fuel : Nat) (c : Int) (b : Board), n < fuel →
      (∀ j : Nat, j ≤ n → 0 ≤ c + j * d ∧ c + j * d < 100) →
      ∃ b', make_flips_loop fuel c d p (c + ((n + 1 : Nat) : Int) * d) b = some b' ∧
        (∀ j : Nat, j ≤ n → b' (c + j * d) = p) ∧
        (∀ x, (∀ j : Nat, j ≤ n → x ≠ c + j * d) → b' x = b x) := by
  intro n
  induction n with
  | zero =>
    intro fuel c b hf hr
    obtain ⟨m, rfl⟩ : ∃ m, fuel = m + 1 := ⟨fuel - 1, by omega⟩
    have hc := hr 0 (le_refl _)
    simp only [Nat.cast_zero, zero_mul, add_zero] at hc
    unfold make_flips_loop
    rw [wr_some b c p hc.1 hc.2]
    dsimp only
    rw [if_neg (by simp)]
    refine ⟨_, rfl, ?_, ?_⟩
    · intro j hj
      have : j = 0 := by omega
      subst this; simp
    · intro x hx
      have := hx 0 (le_refl _)
      simp only [Nat.cast_zero, zero_mul, add_zero] at this
      simp [this]
  | succ i ih =>
    intro fuel c b hf hr
    obtain ⟨m, rfl⟩ : ∃ m, fuel = m + 1 := ⟨fuel - 1, by omega⟩
    have hc := hr 0 (by omega)
    simp only [Nat.cast_zero, zero_mul, add_zero] at hc
    unfold make_flips_loop
    rw [wr_some b c p hc.1 hc.2]
    dsimp only
    have hne : c + d ≠ c + ((i + 1 + 1 : Nat) : Int) * d := by
      intro h
      have h2 : ((i : Int) + 1) * d = 0 := by
        push_cast at h
        linear_combination -h
      rcases mul_eq_zero.1 h2 with h3 | h3
      · omega
      · exact hd h3
    rw [if_pos hne]
    have e : ∀ j : Nat, c + d + (j : Int) * d = c + ((j + 1 : Nat) : Int) * d := by
      intro j; push_cast; ring
    obtain ⟨b', hb', hrun, hrest⟩ := ih m (c + d) (fun j => if j = c then p else b j)
      (by omega) (by intro j hj; rw [e]; exact hr (j + 1) (by omega))
    rw [e] at hb'
    refine ⟨b', hb', ?_, ?_⟩
    · intro j hj
      cases j with
      | zero =>
        simp only [Nat.cast_zero, zero_mul, add_zero]
        by_cases hin : ∃ t : Nat, t ≤ i ∧ c = c + d + (t : Int) * d
        · obtain ⟨t, ht, hceq⟩ := hin
          rw [hceq]; exact hrun t ht
        · rw [hrest c (fun t ht hceq => hin ⟨t, ht, hceq⟩)]
          simp
      | succ t =>
        rw [← e]; exact hrun t (by omega)
    · intro x hx
      rw [hrest x (fun t ht => by rw [e]; exact hx (t + 1) (by omega))]
      have := hx 0 (by omega)
      simp only [Nat.cast_zero, zero_mul, add_zero] at this
      simp [this]

/-- What `make_flips` does in one direction, in terms of the value `would_flip` returns. -/
theorem make_flips_spec (move d p : Int) (b : Board) (hv : validp move ≠ 0)
    (hd : d ∈ ALLDIRECTIONS) (hp : opponent p ≠ p) :
    ∃ b', make_flips move d p b = some b' ∧
      (∀ k : Nat, Flips b move d p k → ∀ j : Nat, 1 ≤ j → j ≤ k → b' (move + j * d) = p) ∧
      (∀ x, (∀ k : Nat, Flips b move d p k → ∀ j : Nat, 1 ≤ j → j ≤ k → x ≠ move + j * d) →
        b' x = b x) := by
  obtain ⟨w, hw⟩ := would_flip_total move d p b hv hd
  unfold make_flips
  rw [hw]
  dsimp only
  by_cases hw0 : w = 0
  · rw [if_neg (by simpa using hw0)]
    refine ⟨b, rfl, ?_, fun _ _ => rfl⟩
    intro k hk
    rw [hw0] at hw
    exact absurd hk (would_flip_zero move d p b k hv hd hp hw)
  · rw [if_pos hw0]
    obtain ⟨k, hk, hwk⟩ := would_flip_nonzero move d p w b hv hd hw hw0
    have hk6 := flips_length b move d p k hv hd hk
    have hk1 := hk.1
    have e : ∀ j : Nat, move + d + (j : Int) * d = move + ((j + 1 : Nat) : Int) * d := by
      intro j; push_cast; ring
    have hbr : w = move + d + ((k - 1 + 1 : Nat) : Int) * d := by
      rw [hwk, e]
      have : k - 1 + 1 + 1 = k + 1 := by omega
      rw [this]
    rw [hbr]
    obtain ⟨b', hb', hrun, hrest⟩ := make_flips_loop_spec d p (dir_ne_zero d hd) (k - 1) 100
      (move + d) b (by omega) (by
        intro j hj
        rw [e]
        by_cases hj0 : j = 0
        · subst hj0
          simpa using neighbour_in_range move d hv hd
        · exact validp_range _ (hk.2.2.1 (j + 1) (by omega) (by omega)).1)
    refine ⟨b', hb', ?_, ?_⟩
    · intro k' hk' j hj1 hjk
      have hkk : k' = k := flips_unique b move d p k' k hp hk' hk
      subst hkk
      have := hrun (j - 1) (by omega)
      rw [e] at this
      have e2 : j - 1 + 1 = j := by omega
      rw [e2] at this
      exact this
    · intro x hx
      apply hrest
      intro j hj
      rw [e]
      exact hx k hk (j + 1) (by omega) (by omega)

theorem flips_congr (b1 b2 : Board) (move d p : Int) (k : Nat) (hv : validp move ≠ 0)
    (hd : d ∈ ALLDIRECTIONS)
    (hag : ∀ j : Nat, 1 ≤ j → j ≤ 8 → b1 (move + j * d) = b2 (move + j * d))
    (h : Flips b1 move d p k) : Flips b2 move d p k := by
  have hk6 := flips_length b1 move d p k hv hd h
  obtain ⟨h1, hfirst, hrun, hendv, hend⟩ := h
  refine ⟨h1, ?_, ?_, hendv, ?_⟩
  · have := hag 1 (le_refl _) (by omega)
    simp only [Nat.cast_one, one_mul] at this
    rw [← this]; exact hfirst
  · intro j hj2 hjk
    have := hrun j hj2 hjk
    rw [← hag j (by omega) (by omega)]
    exact this
  · rw [← hag (k + 1) (by omega) (by omega)]
    exact hend

theorem step_ne_zero (d : Int) (hd : d ∈ ALLDIRECTIONS) (j : Nat) (hj : 1 ≤ j) :
    (j : Int) * d ≠ 0 := by
  intro h
  rcases mul_eq_zero.1 h with h1 | h1
  · omega
  · exact dir_ne_zero d hd h1

theorem flipped_mono (b : Board) (move p : Int) (ds es : List Int) (x : Int)
    (hsub : ∀ d ∈ ds, d ∈ es) (h : Flipped b move p ds x) : Flipped b move p es x := by
  obtain ⟨d, hd, k, j, hk, hj1, hjk, hx⟩ := h
  exact ⟨d, hsub d hd, k, j, hk, hj1, hjk, hx⟩

theorem make_move_loop_spec (b : Board) (move p : Int) (hv : validp move ≠ 0)
    (hp : opponent p ≠ p) :
    ∀ (ds2 ds1 : List Int) (cur : Board), ds1 ++ ds2 = ALLDIRECTIONS →
      FlipState b move p ds1 cur →
      ∃ b', make_move_loop move p ds2 cur = some b' ∧ FlipState b move p ALLDIRECTIONS b' := by
  intro ds2
  induction ds2 with
  | nil =>
    intro ds1 cur h hst
    rw [List.append_nil] at h
    subst h
    exact ⟨cur, rfl, hst⟩
  | cons d ds2 ih =>
    intro ds1 cur h hst
    have hd : d ∈ ALLDIRECTIONS := by rw [← h]; simp
    have hds1 : ∀ e ∈ ds1, e ∈ ALLDIRECTIONS := by
      intro e he; rw [← h]; exact List.mem_append_left _ he
    have hnd : (ds1 ++ d :: ds2).Nodup := by rw [h]; decide
    have hnot : d ∉ ds1 := by
      intro hmem
      exact (List.disjoint_of_nodup_append hnd) hmem (List.mem_cons_self _ _)
    obtain ⟨hmove, hfl, hrest⟩ := hst
    -- the cells of the ray in direction `d` are still as on the original board
    have hag : ∀ j : Nat, 1 ≤ j → j ≤ 8 → cur (move + j * d) = b (move + j * d) := by
      intro j hj1 hj8
      apply hrest
      · intro hx
        exact step_ne_zero d hd j hj1 (by linarith)
      · rintro ⟨e, he, k, i, hk, hi1, hik, hx⟩
        have hk6 := flips_length b move e p k hv (hds1 e he) hk
        have hne : d ≠ e := fun hde => hnot (hde ▸ he)
        exact rays_disjoint d e hd (hds1 e he) hne j i hj1 hj8 hi1 (by omega) (by linarith)
    obtain ⟨b1, hb1, hrun1, hrest1⟩ := make_flips_spec move d p cur hv hd hp
    unfold make_move_loop
    rw [hb1]
    dsimp only
    apply ih (ds1 ++ [d]) b1 (by simp [h])
    refine ⟨?_, ?_, ?_⟩
    · rw [hrest1 move, hmove]
      intro k _ j hj1 _ hx
      exact step_ne_zero d hd j hj1 (by linarith)
    · rintro x ⟨e, he, k, i, hk, hi1, hik, hx⟩
      rcases List.mem_append.1 he with he1 | he1
      · have hcur : cur x = p := hfl x ⟨e, he1, k, i, hk, hi1, hik, hx⟩
        by_cases hin : ∃ k' j' : Nat, Flips cur move d p k' ∧ 1 ≤ j' ∧ j' ≤ k' ∧
            x = move + j' * d
        · obtain ⟨k', j', hk', hj1, hjk, hx'⟩ := hin
          rw [hx']; exact hrun1 k' hk' j' hj1 hjk
        · rw [hrest1 x (fun k' hk' j' hj1 hjk hx' => hin ⟨k', j', hk', hj1, hjk, hx'⟩)]
          exact hcur
      · have hed : e = d := by simpa using he1
        subst hed
        have hk' : Flips cur move e p k :=
          flips_congr b cur move e p k hv hd (fun j h1 h8 => (hag j h1 h8).symm) hk
        rw [hx]; exact hrun1 k hk' i hi1 hik
    · intro x hxm hnf
      rw [hrest1 x]
      · apply hrest x hxm
        intro hf
        exact hnf (flipped_mono b move p ds1 (ds1 ++ [d]) x
          (fun e he => List.mem_append_left _ he) hf)
      · intro k hk j hj1 hjk hx
        apply hnf
        exact ⟨d, by simp, k, j, flips_congr cur b move d p k hv hd hag hk, hj1, hjk, hx⟩

/-- The board `make_move` produces at an interior cell: the move cell and every run
    bracketed on the original board hold `p`, all other cells are unchanged. -/
theorem make_move_spec (b : Board) (move p : Int) (hv : validp move ≠ 0)
    (hp : opponent p ≠ p) :
    ∃ b', make_move move p b = some b' ∧ FlipState b move p ALLDIRECTIONS b' := by
  have hr := validp_range move hv
  unfold make_move
  rw [wr_some b move p hr.1 hr.2]
  dsimp only
  apply make_move_loop_spec b move p hv hp ALLDIRECTIONS [] _ (by simp)
  refine ⟨by simp, ?_, ?_⟩
  · rintro x ⟨e, he, _⟩
    simp at he
  · intro x hx _
    simp [hx]

/-- C3. On a well-formed board, for a player in BLACK/WHITE and a move legal for that
    player, `make_move` terminates with a board in which (i) the move cell holds the
    player, (ii) every cell of every run that a direction brackets on the board as it was
    before the call holds the player, and (iii) every other cell is unchanged. The runs
    are taken on the original board, so the one-direction-at-a-time loop on the mutating
    board agrees with flipping all bracketed runs of the original board at once. -/
theorem make_move_flips_brackets (b : Board) (p move : Int) (hwf : WellFormed b)
    (hp : p = BLACK ∨ p = WHITE) (hlegal : legalp move p b = some 1) :
    ∃ b', make_move move p b = some b' ∧
      b' move = p ∧
      (∀ d ∈ ALLDIRECTIONS, ∀ k : Nat, Brackets b move d p k →
        ∀ j : Nat, 1 ≤ j → j ≤ k → b' (move + j * d) = p) ∧
      (∀ x : Int, x ≠ move →
        (¬ ∃ d ∈ ALLDIRECTIONS, ∃ k j : Nat,
          Brackets b move d p k ∧ 1 ≤ j ∧ j ≤ k ∧ x = move + j * d) →
        b' x = b x) := by
  have hop := opponent_ne_self p hp
  have hv : validp move ≠ 0 := ((legalp_eq_one_iff move p b hop).1 hlegal).1
  obtain ⟨b', hb', hmove, hfl, hrest⟩ := make_move_spec b move p hv hop
  refine ⟨b', hb', hmove, ?_, ?_⟩
  · intro d hd k hk j hj1 hjk
    exact hfl _ ⟨d, hd, k, j, flips_of_brackets b hwf move d p k hv hd hp hk, hj1, hjk, rfl⟩
  · intro x hxm hno
    apply hrest x hxm
    rintro ⟨d, hd, k, j, hk, hj1, hjk, hx⟩
    exact hno ⟨d, hd, k, j, brackets_of_flips b move d p k hk, hj1, hjk, hx⟩

theorem make_move_flips_brackets_witness :
    WellFormed initialise_board ∧ (BLACK = BLACK ∨ BLACK = WHITE) ∧
    legalp 34 BLACK initialise_board = some 1 ∧
    ∃ b', make_move 34 BLACK initialise_board = some b' ∧
      b' 34 = BLACK ∧
      (∀ d ∈ ALLDIRECTIONS, ∀ k : Nat, Brackets initialise_board 34 d BLACK k →
        ∀ j : Nat, 1 ≤ j → j ≤ k → b' (34 + j * d) = BLACK) ∧
      (∀ x : Int, x ≠ 34 →
        (¬ ∃ d ∈ ALLDIRECTIONS, ∃ k j : Nat,
          Brackets initialise_board 34 d BLACK k ∧ 1 ≤ j ∧ j ≤ k ∧ x = 34 + j * d) →
        b' x = initialise_board x) :=
  ⟨by decide, by decide, by decide,
    make_move_flips_brackets initialise_board BLACK 34 (by decide) (by decide) (by decide)⟩

/-! ## Piece counts -/

theorem count_foldl (p : Int) (b : Board) :
    ∀ (l : List Int) (acc : Int),
      l.foldl (fun cnt i => if b i = p then cnt + 1 else cnt) acc
        = acc + (l.map (fun i => if b i = p then (1 : Int) else 0)).sum := by
  intro l
  induction l with
  | nil => intro acc; simp
  | cons i l ih =>
    intro acc
    rw [List.foldl_cons, ih, List.map_cons, List.sum_cons]
    by_cases h : b i = p
    · simp only [h, if_true]; ring
    · simp only [h, if_false]; ring

theorem count_eq_sum (p : Int) (b : Board) :
    count p b = (((List.range 88).map (fun (k : Nat) => (k : Int) + 1)).map
      (fun i => if b i = p then (1 : Int) else 0)).sum := by
  unfold count
  rw [count_foldl]
  simp

theorem mem_count_cells (m : Int) (hv : validp m ≠ 0) :
    m ∈ (List.range 88).map (fun (k : Nat) => (k : Int) + 1) := by
  rw [validp_ne_zero_iff] at hv
  rw [List.mem_map]
  exact ⟨(m - 1).toNat, by rw [List.mem_range]; omega, by omega⟩

/-- Every cell after `make_move` holds the mover or its previous content. -/
theorem make_move_cells (b : Board) (move p : Int) (hv : validp move ≠ 0)
    (hp : opponent p ≠ p) :
    ∃ b', make_move move p b = some b' ∧ b' move = p ∧ ∀ x, b' x = p ∨ b' x = b x := by
  obtain ⟨b', hb', hmove, hfl, hrest⟩ := make_move_spec b move p hv hp
  refine ⟨b', hb', hmove, ?_⟩
  intro x
  by_cases hx : x = move
  · left; rw [hx]; exact hmove
  · by_cases hf : Flipped b move p ALLDIRECTIONS x
    · left; exact hfl x hf
    · right; exact hrest x hx hf

/-- C4. On a well-formed board, after `make_move` of a legal move the mover has strictly
    more pieces than before and the opponent has no more than before. -/
theorem make_move_counts (b : Board) (p move : Int) (_hwf : WellFormed b)
    (hp : p = BLACK ∨ p = WHITE) (hlegal : legalp move p b = some 1) :
    ∃ b', make_move move p b = some b' ∧
      count p b < count p b' ∧ count (opponent p) b' ≤ count (opponent p) b := by
  have hop := opponent_ne_self p hp
  have hl := (legalp_eq_one_iff move p b hop).1 hlegal
  have hv : validp move ≠ 0 := hl.1
  have hempty : b move = EMPTY := hl.2.1
  obtain ⟨b', hb', hmove, hcells⟩ := make_move_cells b move p hv hop
  refine ⟨b', hb', ?_, ?_⟩
  · rw [count_eq_sum, count_eq_sum]
    apply List.sum_lt_sum
    · intro x _
      rcases hcells x with h | h
      · rw [h]; simp only [if_true]; split <;> decide
      · rw [h]
    · refine ⟨move, mem_count_cells move hv, ?_⟩
      rw [hmove, hempty]
      have : EMPTY ≠ p := by rcases hp with rfl | rfl <;> decide
      simp [this]
  · rw [count_eq_sum, count_eq_sum]
    apply List.sum_le_sum
    intro x _
    rcases hcells x with h | h
    · rw [h, if_neg (fun h2 => hop h2.symm)]
      split <;> decide
    · rw [h]

theorem make_move_counts_witness :
    WellFormed initialise_board ∧ (BLACK = BLACK ∨ BLACK = WHITE) ∧
    legalp 34 BLACK initialise_board = some 1 ∧
    ∃ b', make_move 34 BLACK initialise_board = some b' ∧
      count BLACK initialise_board < count BLACK b' ∧
      count (opponent BLACK) b' ≤ count (opponent BLACK) initialise_board :=
  ⟨by decide, by decide, by decide,
    make_move_counts initialise_board BLACK 34 (by decide) (by decide) (by decide)⟩

/-! ## The evaluator is bounded -/

theorem weights_bound (n : Nat) : -5 ≤ weights.getD n 0 ∧ weights.getD n 0 ≤ 5 := by
  by_cases h : n < 100
  · have hall : ∀ k : Nat, k < 100 → -5 ≤ weights.getD k 0 ∧ weights.getD k 0 ≤ 5 := by decide
    exact hall n h
  · have hlen : weights.length = 100 := rfl
    rw [List.getD_eq_default _ _ (by omega)]
    decide

theorem evaluate_foldl_bound (p : Int) (b : Board) :
    ∀ (l : List Int) (acc : Int),
      acc - 5 * l.length ≤
        l.foldl (fun score i =>
          if b i = p then score + weights.getD i.toNat 0
          else if b i = opponent p then score - weights.getD i.toNat 0
          else score) acc ∧
      l.foldl (fun score i =>
          if b i = p then score + weights.getD i.toNat 0
          else if b i = opponent p then score - weights.getD i.toNat 0
          else score) acc ≤ acc + 5 * l.length := by
  intro l
  induction l with
  | nil => intro acc; simp
  | cons i l ih =>
    intro acc
    rw [List.foldl_cons]
    have hw := weights_bound i.toNat
    simp only [List.length_cons]
    push_cast
    by_cases h1 : b i = p
    · rw [if_pos h1]
      have := ih (acc + weights.getD i.toNat 0)
      constructor <;> linarith [this.1, this.2]
    · rw [if_neg h1]
      by_cases h2 : b i = opponent p
      · rw [if_pos h2]
        have := ih (acc - weights.getD i.toNat 0)
        constructor <;> linarith [this.1, this.2]
      · rw [if_neg h2]
        have := ih acc
        constructor <;> linarith [this.1, this.2]

theorem evaluate_bound (p : Int) (b : Board) : -390 ≤ evaluate p b ∧ evaluate p b ≤ 390 := by
  have h := evaluate_foldl_bound p b scan_squares 0
  have hlen : scan_squares.length = 78 := by simp [scan_squares]
  rw [hlen] at h
  simp only [Nat.cast_ofNat] at h
  unfold evaluate
  exact ⟨by linarith [h.1], by linarith [h.2]⟩

theorem evaluate_lt_int_max (p : Int) (b : Board) : evaluate p b < INT_MAX := by
  have := (evaluate_bound p b).2
  unfold INT_MAX; omega

/-! ## Unfolding one level of the search -/

theorem has_legal_moves_eq (b : Board) (p : Int) :
    has_legal_moves b p =
      some (if (scan_squares.filter (fun m => decide (legalp m p b = some 1))).length > 0
        then 1 else 0) := by
  unfold has_legal_moves
  rw [legal_moves_eq]
  simp

theorem has_legal_moves_value (b : Board) (p : Int) :
    has_legal_moves b p = some 0 ∨ has_legal_moves b p = some 1 := by
  rw [has_legal_moves_eq]
  split
  · right; rfl
  · left; rfl

theorem is_game_over_move_value (b : Board) :
    is_game_over_move b = some 0 ∨ is_game_over_move b = some 1 := by
  unfold is_game_over_move
  rcases has_legal_moves_value b BLACK with h | h <;> rw [h] <;> dsimp only
  · rw [if_pos rfl]
    rcases has_legal_moves_value b WHITE with h2 | h2 <;> rw [h2] <;> dsimp only
    · right; rfl
    · left; rfl
  · left; rfl

theorem process_moves_legal (ms : List Int) :
    process_moves ((ms.length : Int) :: ms) (ms.length : Int) = some ms := by
  unfold process_moves
  cases ms with
  | nil => simp
  | cons m ms =>
    rw [if_neg (by simp only [List.length_cons]; push_cast; omega)]
    simp

theorem minimax_succ (d : Nat) (b : Board) (p alpha beta : Int) :
    minimax (d + 1) b p alpha beta =
      if is_game_over_move b = some 1 then some (evaluate p b, b)
      else if p ≠ 0 then
        minimax_max_loop (fun b a be => minimax d b (opponent p) a be) p
          (scan_squares.filter (fun m => decide (legalp m p b = some 1))) b INT_MIN alpha beta
      else
        minimax_min_loop (fun b a be => minimax d b (opponent p) a be) p
          (scan_squares.filter (fun m => decide (legalp m p b = some 1))) b INT_MAX alpha beta := by
  rw [minimax]
  rcases is_game_over_move_value b with h | h
  · rw [h]
    dsimp only
    rw [if_neg (by simp), if_neg (by simp), legal_moves_eq]
    dsimp only
    rw [process_moves_legal]
  · rw [h]
    dsimp only
    rw [if_pos (by decide), if_pos rfl]

theorem unpruned_minimax_succ (d : Nat) (b : Board) (p alpha beta : Int) :
    unpruned_minimax (d + 1) b p alpha beta =
      if is_game_over_move b = some 1 then some (evaluate p b, b)
      else if p ≠ 0 then
        unpruned_max_loop (fun b a be => unpruned_minimax d b (opponent p) a be) p
          (scan_squares.filter (fun m => decide (legalp m p b = some 1))) b INT_MIN alpha beta
      else
        unpruned_min_loop (fun b a be => unpruned_minimax d b (opponent p) a be) p
          (scan_squares.filter (fun m => decide (legalp m p b = some 1))) b INT_MAX alpha beta := by
  rw [unpruned_minimax]
  rcases is_game_over_move_value b with h | h
  · rw [h]
    dsimp only
    rw [if_neg (by simp), if_neg (by simp), legal_moves_eq]
    dsimp only
    rw [process_moves_legal]
  · rw [h]
    dsimp only
    rw [if_pos (by decide), if_pos rfl]

/-! ## Alpha-beta against the unpruned exploration -/

theorem max_lt_int_max (x y : Int) (hx : x < INT_MAX) (hy : y < INT_MAX) :
    MyPlayer.max x y < INT_MAX := by
  unfold MyPlayer.max; split <;> assumption

theorem minimax_max_loop_lt (search : Board → Int → Int → Option (Int × Board)) (p : Int)
    (hs : ∀ b a be s b', search b a be = some (s, b') → s < INT_MAX) :
    ∀ (ms : List Int) (b : Board) (maxEval alpha beta s : Int) (b' : Board),
      maxEval < INT_MAX →
      minimax_max_loop search p ms b maxEval alpha beta = some (s, b') → s < INT_MAX := by
  intro ms
  induction ms with
  | nil =>
    intro b maxEval alpha beta s b' hm h
    simp only [minimax_max_loop, Option.some.injEq, Prod.mk.injEq] at h
    rw [← h.1]; exact hm
  | cons m ms ih =>
    intro b maxEval alpha beta s b' hm h
    unfold minimax_max_loop at h
    cases hmk : make_move m p b with
    | none => rw [hmk] at h; simp at h
    | some b1 =>
      rw [hmk] at h
      dsimp only at h
      cases hsr : search b1 alpha beta with
      | none => rw [hsr] at h; simp at h
      | some r =>
        obtain ⟨ev, b2⟩ := r
        rw [hsr] at h
        dsimp only at h
        have hev := hs b1 alpha beta ev b2 hsr
        have hmx := max_lt_int_max maxEval ev hm hev
        by_cases hc : beta ≤ MyPlayer.max alpha ev
        · rw [if_pos hc] at h
          simp only [Option.some.injEq, Prod.mk.injEq] at h
          rw [← h.1]; exact hmx
        · rw [if_neg hc] at h
          exact ih b2 _ _ beta s b' hmx h

theorem int_min_lt_int_max : INT_MIN < INT_MAX := by decide

theorem minimax_lt_int_max :
    ∀ (d : Nat) (b : Board) (p alpha beta s : Int) (b' : Board),
      (p = BLACK ∨ p = WHITE) →
      minimax d b p alpha beta = some (s, b') → s < INT_MAX := by
  intro d
  induction d with
  | zero =>
    intro b p alpha beta s b' _ h
    simp only [minimax, Option.some.injEq, Prod.mk.injEq] at h
    rw [← h.1]; exact evaluate_lt_int_max p b
  | succ n ih =>
    intro b p alpha beta s b' hp h
    rw [minimax_succ] at h
    by_cases hover : is_game_over_move b = some 1
    · rw [if_pos hover] at h
      simp only [Option.some.injEq, Prod.mk.injEq] at h
      rw [← h.1]; exact evaluate_lt_int_max p b
    · rw [if_neg hover] at h
      have hp0 : p ≠ 0 := by rcases hp with rfl | rfl <;> decide
      rw [if_pos hp0] at h
      exact minimax_max_loop_lt _ p
        (fun b1 a be s1 b2 h1 => ih b1 (opponent p) a be s1 b2 (opponent_player p hp) h1)
        _ b INT_MIN alpha beta s b' int_min_lt_int_max h

theorem minimax_max_loop_eq_unpruned
    (search search' : Board → Int → Int → Option (Int × Board)) (p : Int)
    (heq : ∀ b a, a < INT_MAX → search b a INT_MAX = search' b a INT_MAX)
    (hs : ∀ b a s b', search b a INT_MAX = some (s, b') → s < INT_MAX) :
    ∀ (ms : List Int) (b : Board) (maxEval alpha : Int), alpha < INT_MAX →
      minimax_max_loop search p ms b maxEval alpha INT_MAX
        = unpruned_max_loop search' p ms b maxEval alpha INT_MAX := by
  intro ms
  induction ms with
  | nil => intro b maxEval alpha _; rfl
  | cons m ms ih =>
    intro b maxEval alpha ha
    unfold minimax_max_loop unpruned_max_loop
    cases hmk : make_move m p b with
    | none => rfl
    | some b1 =>
      dsimp only
      rw [← heq b1 alpha ha]
      cases hsr : search b1 alpha INT_MAX with
      | none => rfl
      | some r =>
        obtain ⟨ev, b2⟩ := r
        dsimp only
        have hev := hs b1 alpha ev b2 hsr
        have hmx := max_lt_int_max alpha ev ha hev
        rw [if_neg (not_le.2 hmx)]
        exact ih b2 _ _ hmx

theorem minimax_agrees_unpruned :
    ∀ (d : Nat) (b : Board) (p alpha : Int), (p = BLACK ∨ p = WHITE) → alpha < INT_MAX →
      minimax d b p alpha INT_MAX = unpruned_minimax d b p alpha INT_MAX := by
  intro d
  induction d with
  | zero => intro b p alpha _ _; rfl
  | succ n ih =>
    intro b p alpha hp ha
    rw [minimax_succ, unpruned_minimax_succ]
    by_cases hover : is_game_over_move b = some 1
    · rw [if_pos hover, if_pos hover]
    · rw [if_neg hover, if_neg hover]
      have hp0 : p ≠ 0 := by rcases hp with rfl | rfl <;> decide
      rw [if_pos hp0, if_pos hp0]
      exact minimax_max_loop_eq_unpruned _ _ p
        (fun b1 a ha1 => ih b1 (opponent p) a (opponent_player p hp) ha1)
        (fun b1 a s b2 h1 =>
          minimax_lt_int_max n b1 (opponent p) a INT_MAX s b2 (opponent_player p hp) h1)
        _ b INT_MIN alpha ha

/-! ## The search terminates -/

theorem legal_filter_valid (p : Int) (b : Board) :
    ∀ m ∈ scan_squares.filter (fun m => decide (legalp m p b = some 1)), validp m ≠ 0 := by
  intro m hm
  rw [List.mem_filter] at hm
  have h1 : legalp m p b = some 1 := by simpa using hm.2
  intro h0
  unfold legalp at h1
  rw [if_pos h0] at h1
  simp at h1

theorem minimax_max_loop_total (search : Board → Int → Int → Option (Int × Board)) (p : Int)
    (hp : opponent p ≠ p) (hs : ∀ b a be, ∃ r, search b a be = some r) :
    ∀ (ms : List Int), (∀ m ∈ ms, validp m ≠ 0) →
      ∀ (b : Board) (maxEval alpha beta : Int),
        ∃ r, minimax_max_loop search p ms b maxEval alpha beta = some r := by
  intro ms
  induction ms with
  | nil => intro _ b maxEval alpha beta; exact ⟨_, rfl⟩
  | cons m ms ih =>
    intro hval b maxEval alpha beta
    obtain ⟨b1, hb1, _⟩ := make_move_spec b m p (hval m (List.mem_cons_self _ _)) hp
    obtain ⟨⟨ev, b2⟩, hr⟩ := hs b1 alpha beta
    unfold minimax_max_loop
    rw [hb1]
    dsimp only
    rw [hr]
    dsimp only
    by_cases hc : beta ≤ MyPlayer.max alpha ev
    · rw [if_pos hc]; exact ⟨_, rfl⟩
    · rw [if_neg hc]
      exact ih (fun x hx => hval x (List.mem_cons_of_mem _ hx)) b2 _ _ beta

theorem minimax_total :
    ∀ (d : Nat) (b : Board) (p alpha beta : Int), (p = BLACK ∨ p = WHITE) →
      ∃ r, minimax d b p alpha beta = some r := by
  intro d
  induction d with
  | zero => intro b p alpha beta _; exact ⟨_, rfl⟩
  | succ n ih =>
    intro b p alpha beta hp
    rw [minimax_succ]
    by_cases hover : is_game_over_move b = some 1
    · rw [if_pos hover]; exact ⟨_, rfl⟩
    · rw [if_neg hover]
      have hp0 : p ≠ 0 := by rcases hp with rfl | rfl <;> decide
      rw [if_pos hp0]
      exact minimax_max_loop_total _ p (opponent_ne_self p hp)
        (fun b1 a be => ih b1 (opponent p) a be (opponent_player p hp))
        _ (legal_filter_valid p b) b INT_MIN alpha beta

/-- C5. For a well-formed board, a player in BLACK/WHITE and any depth, `minimax` called
    with the full window `INT_MIN, INT_MAX` returns, and returns the same score (and leaves
    the same board) as the unpruned exploration, i.e. the same recursion with the
    `beta <= alpha` cutoff removed. -/
theorem minimax_eq_unpruned (b : Board) (p : Int) (depth : Nat) (_hwf : WellFormed b)
    (hp : p = BLACK ∨ p = WHITE) :
    ∃ (score : Int) (b' : Board),
      minimax depth b p INT_MIN INT_MAX = some (score, b') ∧
      unpruned_minimax depth b p INT_MIN INT_MAX = some (score, b') := by
  obtain ⟨⟨s, b'⟩, hr⟩ := minimax_total depth b p INT_MIN INT_MAX hp
  refine ⟨s, b', hr, ?_⟩
  rw [← minimax_agrees_unpruned depth b p INT_MIN hp int_min_lt_int_max]
  exact hr

theorem minimax_eq_unpruned_witness :
    WellFormed initialise_board ∧ (BLACK = BLACK ∨ BLACK = WHITE) ∧
    ∃ (score : Int) (b' : Board),
      minimax 2 initialise_board BLACK INT_MIN INT_MAX = some (score, b') ∧
      unpruned_minimax 2 initialise_board BLACK INT_MIN INT_MAX = some (score, b') :=
  ⟨by decide, by decide, minimax_eq_unpruned initialise_board BLACK 2 (by decide) (by decide)⟩

/-! ## Leaves of the search -/

theorem legalp_zero_of_scan (p : Int) (b : Board)
    (h : ∀ m ∈ scan_squares, legalp m p b = some 0) : ∀ m : Int, legalp m p b = some 0 := by
  intro m
  by_cases hm : m ∈ scan_squares
  · exact h m hm
  · have hv : validp m = 0 := by
      rw [validp_eq_zero_iff]
      rw [mem_scan_squares] at hm
      omega
    unfold legalp
    rw [if_pos hv]

theorem legal_filter_nil (p : Int) (b : Board) (h : ∀ m : Int, legalp m p b = some 0) :
    scan_squares.filter (fun m => decide (legalp m p b = some 1)) = [] := by
  rw [List.filter_eq_nil_iff]
  intro m _
  rw [h m]
  decide

theorem is_game_over_of_no_moves (b : Board)
    (h : ∀ m : Int, legalp m BLACK b = some 0 ∧ legalp m WHITE b = some 0) :
    is_game_over_move b = some 1 := by
  unfold is_game_over_move
  rw [has_legal_moves_eq, has_legal_moves_eq,
    legal_filter_nil BLACK b (fun m => (h m).1), legal_filter_nil WHITE b (fun m => (h m).2)]
  rfl

/-- C6. For a well-formed board, a player in BLACK/WHITE and any window: at depth 0, or at
    any depth when neither BLACK nor WHITE has a legal move, `minimax` returns exactly
    `evaluate(player, board)` and applies no move (the board is returned as it was). -/
theorem minimax_leaf (b : Board) (p : Int) (depth : Nat) (alpha beta : Int)
    (_hwf : WellFormed b) (_hp : p = BLACK ∨ p = WHITE)
    (h : depth = 0 ∨ ∀ m : Int, legalp m BLACK b = some 0 ∧ legalp m WHITE b = some 0) :
    minimax depth b p alpha beta = some (evaluate p b, b) := by
  cases depth with
  | zero => rfl
  | succ n =>
    rcases h with h | h
    · omega
    · rw [minimax_succ, if_pos (is_game_over_of_no_moves b h)]

theorem minimax_leaf_witness :
    WellFormed blank_board ∧ (WHITE = BLACK ∨ WHITE = WHITE) ∧
    ((3 : Nat) = 0 ∨
      ∀ m : Int, legalp m BLACK blank_board = some 0 ∧ legalp m WHITE blank_board = some 0) ∧
    minimax 3 blank_board WHITE (-7) 12 = some (evaluate WHITE blank_board, blank_board) :=
  have hno : ∀ m : Int,
      legalp m BLACK blank_board = some 0 ∧ legalp m WHITE blank_board = some 0 :=
    fun m => ⟨legalp_zero_of_scan BLACK blank_board (by decide) m,
      legalp_zero_of_scan WHITE blank_board (by decide) m⟩
  ⟨by decide, by decide, Or.inr hno,
    minimax_leaf blank_board WHITE 3 (-7) 12 (by decide) (by decide) (Or.inr hno)⟩

/-! ## A forced pass inside the search -/

/-- What the source does on a forced pass: the loop over the (empty) move list does not
    run and the initial `maxEval = INT_MIN` is returned. -/
theorem minimax_no_moves (d : Nat) (b : Board) (p alpha beta : Int)
    (hp : p = BLACK ∨ p = WHITE) (hover : is_game_over_move b = some 0)
    (h : ∀ m : Int, legalp m p b = some 0) :
    minimax (d + 1) b p alpha beta = some (INT_MIN, b) := by
  have hp0 : p ≠ 0 := by rcases hp with rfl | rfl <;> decide
  rw [minimax_succ, if_neg (by rw [hover]; decide), if_pos hp0, legal_filter_nil p b h]
  rfl

/-- C7 (failing input). `forced_pass_board` is reached by legal play; it is well-formed and
    not terminal (White can move), Black has no legal move. With depth 1 `minimax` for
    Black returns `INT_MIN`, whereas the one-ply recursion for the opponent on the same
    board returns `evaluate(WHITE, board) = -11`. -/
theorem minimax_forced_pass_int_min :
    (play [(56, BLACK), (66, WHITE), (76, BLACK), (77, WHITE), (34, BLACK), (86, WHITE),
        (88, BLACK), (68, WHITE)] initialise_board).map cells = some (cells forced_pass_board) ∧
    WellFormed forced_pass_board ∧
    legal_moves BLACK forced_pass_board = some [0] ∧
    legal_moves WHITE forced_pass_board = some [2, 33, 46] ∧
    is_game_over_move forced_pass_board = some 0 ∧
    (minimax 1 forced_pass_board BLACK INT_MIN INT_MAX).map Prod.fst = some INT_MIN ∧
    (minimax 0 forced_pass_board (opponent BLACK) INT_MIN INT_MAX).map Prod.fst
      = some (-11) := by
  refine ⟨by decide, by decide, by decide, by decide, by decide, by decide, by decide⟩

/-! ## The search works on the caller's board -/

/-- C8 (failing input). `minimax` at depth 1 on the opening position with Black to move:
    the four moves 34, 43, 56, 65 are applied one after another to the same array. When
    it returns, the caller's board holds a black piece on all four squares (they were
    empty), so the position evaluated for the last move 65 already contained the moves
    34, 43 and 56. -/
theorem minimax_mutates_board :
    legal_moves BLACK initialise_board = some [4, 34, 43, 56, 65] ∧
    (initialise_board 34, initialise_board 43, initialise_board 56, initialise_board 65)
      = (EMPTY, EMPTY, EMPTY, EMPTY) ∧
    (minimax 1 initialise_board BLACK INT_MIN INT_MAX).map
      (fun r => (r.2 34, r.2 43, r.2 56, r.2 65)) = some (BLACK, BLACK, BLACK, BLACK) ∧
    (minimax 1 initialise_board BLACK INT_MIN INT_MAX).map (fun r => cells r.2)
      ≠ some (cells initialise_board) := by
  refine ⟨by decide, by decide, by decide, by decide⟩

/-! ## Partition of the root moves -/

theorem expected_chunk_few (ms : List Int) (w i : Nat) (h : ms.length < w) :
    expected_chunk ms w i = ms := by
  unfold expected_chunk; rw [if_pos h]

theorem expected_chunk_last (ms : List Int) (w : Nat) (h : w ≤ ms.length) :
    expected_chunk ms w w = ms.drop ((w - 1) * (ms.length / w)) := by
  unfold expected_chunk; rw [if_neg (by omega), if_pos rfl]

theorem expected_chunk_inner (ms : List Int) (w i : Nat) (h : w ≤ ms.length) (hi : i ≠ w) :
    expected_chunk ms w i = (ms.drop ((i - 1) * (ms.length / w))).take (ms.length / w) := by
  unfold expected_chunk; rw [if_neg (by omega), if_neg hi]

theorem send_all_expected (ms : List Int) (w : Nat) (h : ms.length < w) :
    ∀ l : List Nat,
      send_all (ms.length : Int) ms (l.map (fun (i : Nat) => (i : Int))) = expected_sends ms w l := by
  intro l
  induction l with
  | nil => rfl
  | cons i l ih =>
    simp only [List.map_cons, send_all, expected_sends]
    rw [ih, expected_chunk_few ms w i h]

theorem send_chunks_expected (ms : List Int) (w : Nat) (hn : w ≤ ms.length) :
    ∀ (len t : Nat), t + len = w →
      send_chunks ((ms.length : Int) :: ms) ((w : Int) + 1) ((ms.length / w : Nat) : Int)
          ((ms.length % w : Nat) : Int)
          ((List.range' (t + 1) len).map (fun (i : Nat) => (i : Int)))
          ((1 + t * (ms.length / w) : Nat) : Int)
        = some (expected_sends ms w (List.range' (t + 1) len)) := by
  intro len
  induction len with
  | zero => intro t _; rfl
  | succ len ih =>
    intro t ht
    have hw0 : 0 < w := by omega
    have hq : w * (ms.length / w) ≤ ms.length := Nat.mul_div_le _ _
    have hnr : w * (ms.length / w) + ms.length % w = ms.length := Nat.div_add_mod _ _
    have htq : (t + 1) * (ms.length / w) = t * (ms.length / w) + ms.length / w :=
      Nat.succ_mul _ _
    have hle : (t + 1) * (ms.length / w) ≤ w * (ms.length / w) :=
      Nat.mul_le_mul_right _ (by omega)
    rw [List.range'_succ]
    simp only [List.map_cons]
    unfold send_chunks expected_sends
    have hdrop : (((ms.length : Int) :: ms).drop (1 + t * (ms.length / w)))
        = ms.drop (t * (ms.length / w)) := by
      rw [Nat.add_comm 1, List.drop_succ_cons]
    by_cases hlast : t + 1 = w
    · -- the last worker takes the base chunk and the remainder
      have hlen0 : len = 0 := by omega
      subst hlen0
      have hcs : chunk_size ((w : Int) + 1) ((ms.length / w : Nat) : Int)
          ((ms.length % w : Nat) : Int) ((t + 1 : Nat) : Int)
          = ((ms.length / w + ms.length % w : Nat) : Int) := by
        unfold chunk_size
        rw [if_pos (by rw [hlast]; ring)]
        push_cast; ring
      rw [hcs]
      have hwq : w * (ms.length / w) = t * (ms.length / w) + ms.length / w :=
        (by rw [hlast] : w * (ms.length / w) = (t + 1) * (ms.length / w)).trans htq
      have hguard : (0 : Int) ≤ ((1 + t * (ms.length / w) : Nat) : Int) ∧
          (0 : Int) ≤ ((ms.length / w + ms.length % w : Nat) : Int) ∧
          ((1 + t * (ms.length / w) : Nat) : Int).toNat
            + ((ms.length / w + ms.length % w : Nat) : Int).toNat
            ≤ ((ms.length : Int) :: ms).length := by
        refine ⟨Int.natCast_nonneg _, Int.natCast_nonneg _, ?_⟩
        rw [Int.toNat_natCast, Int.toNat_natCast, List.length_cons]
        omega
      rw [if_pos hguard]
      simp only [List.range'_zero, List.map_nil, send_chunks, expected_sends]
      rw [Int.toNat_natCast, Int.toNat_natCast, hdrop]
      have hchunk : expected_chunk ms w (t + 1) = ms.drop (t * (ms.length / w)) := by
        rw [hlast, expected_chunk_last ms w hn]
        have : w - 1 = t := by omega
        rw [this]
      rw [hchunk]
      have hlen : (ms.drop (t * (ms.length / w))).length
          = ms.length / w + ms.length % w := by
        rw [List.length_drop]; omega
      rw [List.take_of_length_le (by rw [hlen]), hlen]
    · have hcs : chunk_size ((w : Int) + 1) ((ms.length / w : Nat) : Int)
          ((ms.length % w : Nat) : Int) ((t + 1 : Nat) : Int) = ((ms.length / w : Nat) : Int) := by
        unfold chunk_size
        rw [if_neg]
        intro h
        apply hlast
        have : ((t + 1 : Nat) : Int) = (w : Int) := by rw [h]; ring
        exact_mod_cast this
      rw [hcs]
      have hguard : (0 : Int) ≤ ((1 + t * (ms.length / w) : Nat) : Int) ∧
          (0 : Int) ≤ ((ms.length / w : Nat) : Int) ∧
          ((1 + t * (ms.length / w) : Nat) : Int).toNat + ((ms.length / w : Nat) : Int).toNat
            ≤ ((ms.length : Int) :: ms).length := by
        refine ⟨Int.natCast_nonneg _, Int.natCast_nonneg _, ?_⟩
        rw [Int.toNat_natCast, Int.toNat_natCast, List.length_cons]
        omega
      rw [if_pos hguard]
      have hnext : ((1 + t * (ms.length / w) : Nat) : Int) + ((ms.length / w : Nat) : Int)
          = ((1 + (t + 1) * (ms.length / w) : Nat) : Int) := by
        rw [htq]; push_cast; ring
      rw [hnext, ih (t + 1) (by omega)]
      dsimp only
      rw [Int.toNat_natCast, Int.toNat_natCast, hdrop]
      have hchunk : expected_chunk ms w (t + 1)
          = (ms.drop (t * (ms.length / w))).take (ms.length / w) := by
        rw [expected_chunk_inner ms w (t + 1) hn hlast]
        simp
      rw [hchunk]
      have hlen : ((ms.drop (t * (ms.length / w))).take (ms.length / w)).length
          = ms.length / w := by
        rw [List.length_take, List.length_drop]; omega
      rw [hlen]

theorem bens_sends_expected (w : Nat) (hw : 1 ≤ w) (ms : List Int) :
    bens_sends ((w : Int) + 1) ((ms.length : Int) :: ms)
      = some (expected_sends ms w (List.range' 1 w)) := by
  unfold bens_sends
  dsimp only
  have hwr : worker_ranks ((w : Int) + 1)
      = (List.range' 1 w).map (fun (i : Nat) => (i : Int)) := by
    unfold worker_ranks
    simp
  have hsub : (w : Int) + 1 - 1 = (w : Int) := by ring
  rw [hwr, hsub]
  by_cases hlt : ms.length < w
  · rw [if_pos (by exact_mod_cast hlt), process_moves_legal]
    dsimp only
    rw [send_all_expected ms w hlt]
  · rw [if_neg (by exact_mod_cast hlt), if_neg (by exact_mod_cast (by omega : w ≠ 0))]
    rw [← Int.ofNat_tdiv, ← Int.ofNat_tmod]
    have := send_chunks_expected ms w (by omega) w 0 (by omega)
    simpa using this

theorem slices_flatten (ms : List Int) (q : Nat) :
    ∀ v : Nat,
      ((List.range' 1 v).map (fun i => (ms.drop ((i - 1) * q)).take q)).flatten
        = ms.take (v * q) := by
  intro v
  induction v with
  | zero => simp
  | succ v ih =>
    rw [List.range'_concat, List.map_append, List.flatten_append, ih]
    simp only [List.map_cons, List.map_nil, List.flatten_cons, List.flatten_nil,
      List.append_nil, Nat.one_mul]
    have h1 : 1 + v - 1 = v := by omega
    rw [h1, Nat.succ_mul, List.take_add]

theorem expected_chunks_flatten (ms : List Int) (w : Nat) (hw : 1 ≤ w) (hn : w ≤ ms.length) :
    ((List.range' 1 w).map (expected_chunk ms w)).flatten = ms := by
  obtain ⟨v, rfl⟩ : ∃ v, w = v + 1 := ⟨w - 1, by omega⟩
  rw [List.range'_concat, List.map_append, List.flatten_append]
  have hinner : (List.range' 1 v).map (expected_chunk ms (v + 1))
      = (List.range' 1 v).map
          (fun i => (ms.drop ((i - 1) * (ms.length / (v + 1)))).take (ms.length / (v + 1))) := by
    apply List.map_congr_left
    intro i hi
    rw [List.mem_range'_1] at hi
    exact expected_chunk_inner ms (v + 1) i hn (by omega)
  rw [hinner, slices_flatten]
  simp only [List.map_cons, List.map_nil, List.flatten_cons, List.flatten_nil,
    List.append_nil, Nat.one_mul]
  have h1 : 1 + v = v + 1 := by omega
  rw [h1, expected_chunk_last ms (v + 1) hn]
  simp

/-- C9. With `w = MPI_SIZE - 1 >= 1` workers and the ascending root list `ms` of length
    `n`, the sends of `bens_strategy` hand worker `i` the size of its chunk and the chunk
    `expected_chunk ms w i`: the whole list when `n < w`; when `n >= w`, with `q = n / w`,
    the slice `[(i-1)*q, i*q)` for `i < w` and everything from `(w-1)*q` (size
    `q + n mod w`) for the last worker. For `n >= w` the chunks concatenate to `ms` in
    worker order, their sizes sum to `n`, and they are pairwise disjoint. -/
theorem bens_chunks_partition (w : Nat) (ms : List Int) (hw : 1 ≤ w)
    (hasc : ms.Pairwise (fun x y => x < y)) :
    bens_sends ((w : Int) + 1) ((ms.length : Int) :: ms)
      = some (expected_sends ms w (List.range' 1 w)) ∧
    (ms.length < w → ∀ i : Nat, expected_chunk ms w i = ms) ∧
    (w ≤ ms.length →
      (∀ i : Nat, 1 ≤ i → i < w →
        expected_chunk ms w i = (ms.drop ((i - 1) * (ms.length / w))).take (ms.length / w) ∧
        (expected_chunk ms w i).length = ms.length / w) ∧
      expected_chunk ms w w = ms.drop ((w - 1) * (ms.length / w)) ∧
      (expected_chunk ms w w).length = ms.length / w + ms.length % w ∧
      ((List.range' 1 w).map (expected_chunk ms w)).flatten = ms ∧
      (((List.range' 1 w).map (expected_chunk ms w)).map List.length).sum = ms.length ∧
      ((List.range' 1 w).map (expected_chunk ms w)).Pairwise List.Disjoint) := by
  refine ⟨bens_sends_expected w hw ms, fun h i => expected_chunk_few ms w i h, ?_⟩
  intro hn
  have hq : w * (ms.length / w) ≤ ms.length := Nat.mul_div_le _ _
  have hnr : w * (ms.length / w) + ms.length % w = ms.length := Nat.div_add_mod _ _
  have hflat := expected_chunks_flatten ms w hw hn
  refine ⟨?_, expected_chunk_last ms w hn, ?_, hflat, ?_, ?_⟩
  · intro i hi1 hiw
    have hc := expected_chunk_inner ms w i hn (by omega)
    refine ⟨hc, ?_⟩
    rw [hc, List.length_take, List.length_drop]
    obtain ⟨t, rfl⟩ : ∃ t, i = t + 1 := ⟨i - 1, by omega⟩
    have htq : (t + 1) * (ms.length / w) = t * (ms.length / w) + ms.length / w :=
      Nat.succ_mul _ _
    have hle : (t + 1) * (ms.length / w) ≤ w * (ms.length / w) :=
      Nat.mul_le_mul_right _ (by omega)
    have h1 : t + 1 - 1 = t := by omega
    rw [h1]
    omega
  · rw [expected_chunk_last ms w hn, List.length_drop, Nat.sub_one_mul]
    have hqle : ms.length / w ≤ w * (ms.length / w) := Nat.le_mul_of_pos_left _ (by omega)
    generalize ms.length / w = q at *
    generalize ms.length % w = r at *
    omega
  · rw [← List.length_flatten, hflat]
  · have hnd : ms.Nodup := hasc.imp (fun h => ne_of_lt h)
    rw [← hflat] at hnd
    exact (List.nodup_flatten.1 hnd).2

theorem bens_chunks_partition_witness :
    (1 ≤ 3) ∧ [34, 43, 56, 65].Pairwise (fun (x y : Int) => x < y) ∧
    (bens_sends (((3 : Nat) : Int) + 1)
        ((([34, 43, 56, 65] : List Int).length : Int) :: [34, 43, 56, 65])
      = some (expected_sends [34, 43, 56, 65] 3 (List.range' 1 3)) ∧
    (([34, 43, 56, 65] : List Int).length < 3 →
      ∀ i : Nat, expected_chunk [34, 43, 56, 65] 3 i = [34, 43, 56, 65]) ∧
    (3 ≤ ([34, 43, 56, 65] : List Int).length →
      (∀ i : Nat, 1 ≤ i → i < 3 →
        expected_chunk [34, 43, 56, 65] 3 i
          = (([34, 43, 56, 65] : List Int).drop
              ((i - 1) * (([34, 43, 56, 65] : List Int).length / 3))).take
              (([34, 43, 56, 65] : List Int).length / 3) ∧
        (expected_chunk [34, 43, 56, 65] 3 i).length
          = ([34, 43, 56, 65] : List Int).length / 3) ∧
      expected_chunk [34, 43, 56, 65] 3 3
        = ([34, 43, 56, 65] : List Int).drop
            ((3 - 1) * (([34, 43, 56, 65] : List Int).length / 3)) ∧
      (expected_chunk [34, 43, 56, 65] 3 3).length
        = ([34, 43, 56, 65] : List Int).length / 3
          + ([34, 43, 56, 65] : List Int).length % 3 ∧
      ((List.range' 1 3).map (expected_chunk [34, 43, 56, 65] 3)).flatten = [34, 43, 56, 65] ∧
      (((List.range' 1 3).map (expected_chunk [34, 43, 56, 65] 3)).map List.length).sum
        = ([34, 43, 56, 65] : List Int).length ∧
      ((List.range' 1 3).map (expected_chunk [34, 43, 56, 65] 3)).Pairwise List.Disjoint)) :=
  ⟨by decide, by decide, bens_chunks_partition 3 [34, 43, 56, 65] (by decide) (by decide)⟩

/-! ## The worker's choice -/

/-- C10 (failing input). `before_pass_board` is reached by legal play with White to move;
    68 is one of White's legal moves, and after it Black must pass, so the depth-5 search
    of that move returns `INT_MIN`. A worker that is assigned the single move 68 compares
    `INT_MIN > INT_MIN`, keeps `best_move = -1` and reports the pass sentinel instead of 68. -/
theorem run_worker_reports_pass_for_move :
    (play [(56, BLACK), (66, WHITE), (76, BLACK), (77, WHITE), (34, BLACK), (86, WHITE),
        (88, BLACK)] initialise_board).map cells = some (cells before_pass_board) ∧
    WellFormed before_pass_board ∧
    legal_moves WHITE before_pass_board = some [3, 46, 68, 78] ∧
    (make_move 68 WHITE before_pass_board).map cells = some (cells forced_pass_board) ∧
    (minimax 5 forced_pass_board (opponent WHITE) INT_MIN INT_MAX).map Prod.fst
      = some INT_MIN ∧
    run_worker WHITE before_pass_board 1 [68] = some (-1) := by
  refine ⟨by decide, by decide, by decide, by decide, by decide, by decide⟩

/-! ## Move strings -/

theorem move_string_of_scan :
    ∀ loc ∈ scan_squares, validp loc ≠ 0 →
      get_move_string loc = [48 + (loc / 10 - 1), 48 + (loc % 10 - 1), 10, 0] ∧
      get_loc (get_move_string loc) = some loc := by decide

/-- C15. For every interior cell `loc = 10*(r+1) + (c+1)` with `0 <= r, c <= 7`,
    `get_move_string` writes the digit of `r`, the digit of `c` (then the newline and
    the terminator), and `get_loc` of that string is `loc` again. -/
theorem move_string_round_trip (loc : Int) (hv : validp loc = 1) :
    ∃ r c : Int, 0 ≤ r ∧ r ≤ 7 ∧ 0 ≤ c ∧ c ≤ 7 ∧ loc = 10 * (r + 1) + (c + 1) ∧
      get_move_string loc = [48 + r, 48 + c, 10, 0] ∧
      get_loc (get_move_string loc) = some loc := by
  have hv0 : validp loc ≠ 0 := (validp_eq_one_iff loc).1 hv
  have hr := (validp_ne_zero_iff loc).1 hv0
  have hmem : loc ∈ scan_squares := (mem_scan_squares loc).2 ⟨hr.1, hr.2.1⟩
  obtain ⟨h1, h2⟩ := move_string_of_scan loc hmem hv0
  refine ⟨loc / 10 - 1, loc % 10 - 1, ?_, ?_, ?_, ?_, ?_, h1, h2⟩ <;> omega

theorem move_string_round_trip_witness :
    validp 34 = 1 ∧
    ∃ r c : Int, 0 ≤ r ∧ r ≤ 7 ∧ 0 ≤ c ∧ c ≤ 7 ∧ (34 : Int) = 10 * (r + 1) + (c + 1) ∧
      get_move_string 34 = [48 + r, 48 + c, 10, 0] ∧
      get_loc (get_move_string 34) = some 34 :=
  ⟨by decide, move_string_round_trip 34 (by decide)⟩

/-- C16 (counterexample). The two-digit string `"00"` decodes to cell 11, and
    `get_move_string 11` is `"00\n"`: three characters, not the string that was decoded. -/
theorem two_digit_string_not_fixed :
    get_loc [48, 48, 0] = some 11 ∧ get_move_string 11 = [48, 48, 10, 0] ∧
    (get_loc [48, 48, 0]).map get_move_string ≠ some [48, 48, 0] := by decide

/-- C16 (amended). For a move string that starts with two digits in `'0'..'7'`,
    `get_move_string (get_loc s)` is these two digits followed by a newline (and the
    terminator): the coordinates survive, and the string itself is reproduced exactly
    when it has the newline-terminated form that `get_move_string` writes. -/
theorem digits_round_trip (d0 d1 : Int) (rest : List Int) (h0 : 48 ≤ d0 ∧ d0 ≤ 55)
    (h1 : 48 ≤ d1 ∧ d1 ≤ 55) :
    (get_loc (d0 :: d1 :: rest)).map get_move_string = some [d0, d1, 10, 0] ∧
    (get_loc [d0, d1, 10, 0]).map get_move_string = some [d0, d1, 10, 0] := by
  obtain ⟨h0a, h0b⟩ := h0
  obtain ⟨h1a, h1b⟩ := h1
  have key : get_move_string (10 * ((d0 - 48) + 1) + (d1 - 48) + 1) = [d0, d1, 10, 0] := by
    interval_cases d0 <;> interval_cases d1 <;> decide
  exact ⟨by simp only [get_loc, Option.map_some']; rw [key],
    by simp only [get_loc, Option.map_some']; rw [key]⟩

theorem digits_round_trip_witness :
    ((48 : Int) ≤ 50 ∧ (50 : Int) ≤ 55) ∧ ((48 : Int) ≤ 53 ∧ (53 : Int) ≤ 55) ∧
    ((get_loc (50 :: 53 :: [0])).map get_move_string = some [50, 53, 10, 0] ∧
     (get_loc [50, 53, 10, 0]).map get_move_string = some [50, 53, 10, 0]) :=
  ⟨by decide, by decide, digits_round_trip 50 53 [0] (by decide) (by decide)⟩

/-! ## `apply_opp_move` -/

theorem make_move_out_of_board (move p : Int) (b : Board) (h : move < 0 ∨ 100 ≤ move) :
    make_move move p b = none := by
  unfold make_move wr
  rw [if_neg (by unfold BOARDSIZE; omega)]

/-- C17 (failing input). The pass token `"pass\n"` compares equal to the literal, so any
    conforming `strcmp` returns 0 and the test `== -1` fails: `get_loc` decodes `'p'`,
    `'a'` to cell 700 and `make_move` writes outside the 100-cell board. The call is not
    a no-op; it has no defined result. -/
theorem apply_opp_move_pass_not_skipped (strcmp : List Int → List Int → Int)
    (hcmp : strcmp PASS PASS = 0) (my_colour : Int) (b : Board) :
    get_loc PASS = some 700 ∧
    apply_opp_move strcmp PASS my_colour b = make_move 700 (opponent my_colour) b ∧
    apply_opp_move strcmp PASS my_colour b = none := by
  have h1 : apply_opp_move strcmp PASS my_colour b = make_move 700 (opponent my_colour) b := by
    unfold apply_opp_move
    rw [hcmp, if_neg (by decide)]
    rfl
  exact ⟨rfl, h1, by rw [h1]; exact make_move_out_of_board _ _ _ (Or.inr (by decide))⟩

theorem apply_opp_move_pass_not_skipped_witness :
    strcmp_bytes PASS PASS = 0 ∧
    (get_loc PASS = some 700 ∧
     apply_opp_move strcmp_bytes PASS BLACK initialise_board
       = make_move 700 (opponent BLACK) initialise_board ∧
     apply_opp_move strcmp_bytes PASS BLACK initialise_board = none) :=
  ⟨by decide, apply_opp_move_pass_not_skipped strcmp_bytes (by decide) BLACK initialise_board⟩

theorem wr_keeps (b b1 : Board) (i p : Int) (h : wr b i p = some b1) :
    b1 i = p ∧ ∀ x, b x = p → b1 x = p := by
  unfold wr at h
  by_cases hr : 0 ≤ i ∧ i < BOARDSIZE
  · rw [if_pos hr] at h
    have hb : b1 = fun j => if j = i then p else b j := by simpa using h.symm
    subst hb
    refine ⟨by simp, ?_⟩
    intro x hx
    by_cases hxi : x = i <;> simp [hxi, hx]
  · rw [if_neg hr] at h
    simp at h

theorem make_flips_loop_keeps (d p br : Int) :
    ∀ (fuel : Nat) (c : Int) (b b' : Board),
      make_flips_loop fuel c d p br b = some b' → ∀ x, b x = p → b' x = p := by
  intro fuel
  induction fuel with
  | zero => intro c b b' h; simp [make_flips_loop] at h
  | succ n ih =>
    intro c b b' h x hx
    unfold make_flips_loop at h
    cases hw : wr b c p with
    | none => rw [hw] at h; simp at h
    | some b1 =>
      rw [hw] at h
      dsimp only at h
      have hx1 := (wr_keeps b b1 c p hw).2 x hx
      by_cases hc : c + d ≠ br
      · rw [if_pos hc] at h
        exact ih (c + d) b1 b' h x hx1
      · rw [if_neg hc] at h
        have : b1 = b' := by simpa using h
        rw [← this]; exact hx1

theorem make_flips_keeps (move d p : Int) (b b' : Board)
    (h : make_flips move d p b = some b') : ∀ x, b x = p → b' x = p := by
  unfold make_flips at h
  cases hw : would_flip move d p b with
  | none => rw [hw] at h; simp at h
  | some br =>
    rw [hw] at h
    dsimp only at h
    by_cases hb : br ≠ 0
    · rw [if_pos hb] at h
      exact make_flips_loop_keeps d p br 100 (move + d) b b' h
    · rw [if_neg hb] at h
      have : b = b' := by simpa using h
      intro x hx; rw [← this]; exact hx

theorem make_move_loop_keeps (move p : Int) :
    ∀ (ds : List Int) (b b' : Board),
      make_move_loop move p ds b = some b' → ∀ x, b x = p → b' x = p := by
  intro ds
  induction ds with
  | nil =>
    intro b b' h x hx
    have : b = b' := by simpa [make_move_loop] using h
    rw [← this]; exact hx
  | cons d ds ih =>
    intro b b' h x hx
    unfold make_move_loop at h
    cases hf : make_flips move d p b with
    | none => rw [hf] at h; simp at h
    | some b1 =>
      rw [hf] at h
      dsimp only at h
      exact ih b1 b' h x (make_flips_keeps move d p b b1 hf x hx)

/-- Whenever `make_move` returns, the cell it was given holds the player. -/
theorem make_move_places (move p : Int) (b b' : Board) (h : make_move move p b = some b') :
    b' move = p := by
  unfold make_move at h
  cases hw : wr b move p with
  | none => rw [hw] at h; simp at h
  | some b0 =>
    rw [hw] at h
    dsimp only at h
    exact make_move_loop_keeps move p ALLDIRECTIONS b0 b' h move (wr_keeps b b0 move p hw).1

/-- C18 (counterexample). With the reference `strcmp`, the string `"08\n"` is neither the
    pass token nor two digits in `'0'..'7'`; `apply_opp_move` does not reject it: it
    decodes it to cell 19 and `make_move` writes White's piece on that border cell. -/
theorem apply_opp_move_border_cell :
    strcmp_bytes [48, 56, 10, 0] PASS = -64 ∧
    get_loc [48, 56, 10, 0] = some 19 ∧
    validp 19 = 0 ∧ initialise_board 19 = OUTER ∧
    (apply_opp_move strcmp_bytes [48, 56, 10, 0] BLACK initialise_board).map (fun b => b 19)
      = some WHITE ∧
    (apply_opp_move strcmp_bytes [48, 56, 10, 0] BLACK initialise_board).map cells
      ≠ some (cells initialise_board) := by
  refine ⟨by decide, by decide, by decide, by decide, by decide, by decide⟩

/-- C18 (amended). `apply_opp_move` has no range check: whenever the comparison with
    `"pass\n"` does not return -1, the cell decoded by `get_loc` is handed to `make_move`
    as it is, and when the call returns that cell holds the opponent's piece, interior
    cell or not. -/
theorem apply_opp_move_unchecked (strcmp : List Int → List Int → Int) (move : List Int)
    (my_colour loc : Int) (b : Board) (hcmp : strcmp move PASS ≠ -1)
    (hloc : get_loc move = some loc) :
    apply_opp_move strcmp move my_colour b = make_move loc (opponent my_colour) b ∧
    ∀ b', apply_opp_move strcmp move my_colour b = some b' → b' loc = opponent my_colour := by
  have h1 : apply_opp_move strcmp move my_colour b
      = make_move loc (opponent my_colour) b := by
    unfold apply_opp_move
    rw [if_neg hcmp, hloc]
  refine ⟨h1, ?_⟩
  intro b' hb'
  rw [h1] at hb'
  exact make_move_places loc (opponent my_colour) b b' hb'

theorem apply_opp_move_unchecked_witness :
    strcmp_bytes [48, 56, 10, 0] PASS ≠ -1 ∧ get_loc [48, 56, 10, 0] = some 19 ∧
    (apply_opp_move strcmp_bytes [48, 56, 10, 0] BLACK initialise_board
        = make_move 19 (opponent BLACK) initialise_board ∧
     ∀ b', apply_opp_move strcmp_bytes [48, 56, 10, 0] BLACK initialise_board = some b' →
       b' 19 = opponent BLACK) :=
  ⟨by decide, by decide,
    apply_opp_move_unchecked strcmp_bytes [48, 56, 10, 0] BLACK 19 initialise_board
      (by decide) (by decide)⟩

/-! ## The evaluator as a weighted sum -/

theorem evaluate_foldl_sum (p : Int) (b : Board) :
    ∀ (l : List Int) (acc : Int),
      l.foldl (fun score i =>
          if b i = p then score + weights.getD i.toNat 0
          else if b i = opponent p then score - weights.getD i.toNat 0
          else score) acc
        = acc + (l.map (fun i => weights.getD i.toNat 0 * piece_sign p (b i))).sum := by
  intro l
  induction l with
  | nil => intro acc; simp
  | cons i l ih =>
    intro acc
    rw [List.foldl_cons, ih, List.map_cons, List.sum_cons]
    by_cases h1 : b i = p
    · have hps : piece_sign p (b i) = 1 := by unfold piece_sign; rw [if_pos h1]
      rw [if_pos h1, hps]; ring
    · by_cases h2 : b i = opponent p
      · have hps : piece_sign p (b i) = -1 := by
          unfold piece_sign; rw [if_neg h1, if_pos h2]
        rw [if_neg h1, if_pos h2, hps]; ring
      · have hps : piece_sign p (b i) = 0 := by
          unfold piece_sign; rw [if_neg h1, if_neg h2]
        rw [if_neg h1, if_neg h2, hps]; ring

theorem evaluate_eq_sum (p : Int) (b : Board) :
    evaluate p b
      = (scan_squares.map (fun i => weights.getD i.toNat 0 * piece_sign p (b i))).sum := by
  unfold evaluate
  rw [evaluate_foldl_sum]
  simp

theorem weights_border_zero :
    ∀ i ∈ scan_squares, validp i = 0 → weights.getD i.toNat 0 = 0 := by decide

theorem sum_filter_of_zero (f g : Int → Int) (q : Int → Bool) :
    ∀ l : List Int, (∀ i ∈ l, q i = true → f i = g i) → (∀ i ∈ l, q i = false → f i = 0) →
      (l.map f).sum = ((l.filter q).map g).sum := by
  intro l
  induction l with
  | nil => intro _ _; rfl
  | cons i l ih =>
    intro h1 h2
    have ih' := ih (fun j hj => h1 j (List.mem_cons_of_mem _ hj))
      (fun j hj => h2 j (List.mem_cons_of_mem _ hj))
    cases hq : q i with
    | true =>
      rw [List.filter_cons_of_pos hq, List.map_cons, List.map_cons, List.sum_cons,
        List.sum_cons, ih', h1 i (List.mem_cons_self _ _) hq]
    | false =>
      rw [List.filter_cons_of_neg (by simp [hq]), List.map_cons, List.sum_cons, ih',
        h2 i (List.mem_cons_self _ _) hq, zero_add]

theorem piece_sign_spec (p : Int) (hp : p = BLACK ∨ p = WHITE) (v : Int) :
    (v = p → piece_sign p v = 1) ∧ (v = opponent p → piece_sign p v = -1) ∧
      (v = EMPTY → piece_sign p v = 0) := by
  unfold piece_sign
  refine ⟨fun h => by rw [if_pos h], ?_, ?_⟩
  · intro h
    rw [if_neg (by rw [h]; exact opponent_ne_self p hp), if_pos h]
  · intro h
    subst h
    rcases hp with rfl | rfl <;> decide

/-- C19. On a well-formed board, for a player in BLACK/WHITE, `evaluate` is the sum over
    the 64 interior cells of `weights[c] * s(c)`, for any `s` that is +1 on the player's
    cells, -1 on the opponent's cells and 0 on empty cells. -/
theorem evaluate_weighted_sum (b : Board) (p : Int) (hwf : WellFormed b)
    (hp : p = BLACK ∨ p = WHITE) (s : Int → Int)
    (hs : ∀ c : Int, validp c ≠ 0 →
      (b c = p → s c = 1) ∧ (b c = opponent p → s c = -1) ∧ (b c = EMPTY → s c = 0)) :
    evaluate p b
      = ((scan_squares.filter (fun c => decide (validp c ≠ 0))).map
          (fun c => weights.getD c.toNat 0 * s c)).sum ∧
    (scan_squares.filter (fun c => decide (validp c ≠ 0))).length = 64 ∧
    (∀ c : Int, c ∈ scan_squares.filter (fun c => decide (validp c ≠ 0)) ↔ validp c ≠ 0) := by
  refine ⟨?_, scan_valid_count, ?_⟩
  · rw [evaluate_eq_sum]
    apply sum_filter_of_zero
    · intro i hi hq
      have hv : validp i ≠ 0 := by simpa using hq
      have hr := validp_range i hv
      have hcell := wf_cell b hwf i hr.1 hr.2
      rw [if_pos hv] at hcell
      obtain ⟨hs1, hs2, hs3⟩ := hs i hv
      obtain ⟨hp1, hp2, hp3⟩ := piece_sign_spec p hp (b i)
      rcases hcell with he | hb | hw
      · rw [hp3 he, hs3 he]
      · rcases hp with rfl | rfl
        · rw [hp1 hb, hs1 hb]
        · have ho : b i = opponent WHITE := hb
          rw [hp2 ho, hs2 ho]
      · rcases hp with rfl | rfl
        · have ho : b i = opponent BLACK := hw
          rw [hp2 ho, hs2 ho]
        · rw [hp1 hw, hs1 hw]
    · intro i hi hq
      have hv : validp i = 0 := by simpa using hq
      rw [weights_border_zero i hi hv, zero_mul]
  · intro c
    rw [List.mem_filter, mem_scan_squares]
    simp only [decide_eq_true_eq]
    constructor
    · intro h; exact h.2
    · intro h
      have := (validp_ne_zero_iff c).1 h
      exact ⟨⟨this.1, this.2.1⟩, h⟩

theorem evaluate_weighted_sum_witness :
    WellFormed initialise_board ∧ (BLACK = BLACK ∨ BLACK = WHITE) ∧
    (∀ c : Int, validp c ≠ 0 →
      (initialise_board c = BLACK → piece_sign BLACK (initialise_board c) = 1) ∧
      (initialise_board c = opponent BLACK → piece_sign BLACK (initialise_board c) = -1) ∧
      (initialise_board c = EMPTY → piece_sign BLACK (initialise_board c) = 0)) ∧
    (evaluate BLACK initialise_board
      = ((scan_squares.filter (fun c => decide (validp c ≠ 0))).map
          (fun c => weights.getD c.toNat 0 * piece_sign BLACK (initialise_board c))).sum ∧
    (scan_squares.filter (fun c => decide (validp c ≠ 0))).length = 64 ∧
    (∀ c : Int, c ∈ scan_squares.filter (fun c => decide (validp c ≠ 0)) ↔ validp c ≠ 0)) :=
  ⟨by decide, by decide,
    fun c _ => piece_sign_spec BLACK (by decide) (initialise_board c),
    evaluate_weighted_sum initialise_board BLACK (by decide) (by decide)
      (fun c => piece_sign BLACK (initialise_board c))
      (fun c _ => piece_sign_spec BLACK (by decide) (initialise_board c))⟩

/-! ## Full boards -/

theorem full_cell (b : Board) (hfull : FullBoard b) (i : Int) (hv : validp i ≠ 0) :
    b i ≠ EMPTY := by
  have hr := validp_range i hv
  have h := hfull i.toNat (by omega)
  have e : ((i.toNat : Nat) : Int) = i := Int.toNat_of_nonneg hr.1
  rw [e] at h
  exact h hv

set_option maxRecDepth 100000 in
theorem count_cells_valid :
    (((List.range 88).map (fun (k : Nat) => (k : Int) + 1)).map
      (fun i => if validp i ≠ 0 then (1 : Int) else 0)).sum = 64 := by decide

theorem count_black_white_full (b : Board) (hwf : WellFormed b) (hfull : FullBoard b) :
    count BLACK b + count WHITE b = 64 := by
  rw [count_eq_sum, count_eq_sum, ← List.sum_map_add, ← count_cells_valid]
  congr 1
  apply List.map_congr_left
  intro i hi
  rw [List.mem_map] at hi
  obtain ⟨k, hk, rfl⟩ := hi
  rw [List.mem_range] at hk
  have hcell := wf_cell b hwf ((k : Int) + 1) (by omega) (by omega)
  by_cases hv : validp ((k : Int) + 1) ≠ 0
  · rw [if_pos hv] at hcell
    rw [if_pos hv]
    rcases hcell with he | hb | hw
    · exact absurd he (full_cell b hfull _ hv)
    · rw [hb]; decide
    · rw [hw]; decide
  · rw [if_neg hv] at hcell
    rw [if_neg hv, hcell]; decide

theorem piece_sign_opponent (p : Int) (hp : p = BLACK ∨ p = WHITE) (v : Int) :
    piece_sign (opponent p) v = - piece_sign p v := by
  rcases hp with rfl | rfl <;>
    · unfold piece_sign opponent BLACK WHITE EMPTY
      split_ifs <;> omega

theorem evaluate_opponent (b : Board) (p : Int) (hp : p = BLACK ∨ p = WHITE) :
    evaluate p b + evaluate (opponent p) b = 0 := by
  rw [evaluate_eq_sum, evaluate_eq_sum, ← List.sum_map_add]
  have hz : scan_squares.map (fun i =>
        weights.getD i.toNat 0 * piece_sign p (b i)
          + weights.getD i.toNat 0 * piece_sign (opponent p) (b i))
      = scan_squares.map (fun _ => (0 : Int)) := by
    apply List.map_congr_left
    intro i _
    rw [piece_sign_opponent p hp]; ring
  rw [hz]
  simp

set_option maxRecDepth 100000 in
/-- C20 (counterexample). The board with a black piece on every interior cell is
    well-formed and full; `evaluate` for Black is the sum of the weight table, 4, so the
    score plus the two piece counts is 68, not 64. -/
theorem full_board_sum_not_64 :
    WellFormed full_black_board ∧ FullBoard full_black_board ∧
    evaluate BLACK full_black_board = 4 ∧
    count BLACK full_black_board = 64 ∧ count WHITE full_black_board = 0 ∧
    evaluate BLACK full_black_board + count BLACK full_black_board
      + count WHITE full_black_board ≠ 64 := by
  refine ⟨by decide, by decide, by decide, by decide, by decide, by decide⟩

/-- C20 (amended). On a full well-formed board the two piece counts sum to 64, so the
    score plus the counts is 64 plus the score; the score is the weighted piece
    difference (the scores of the two players cancel) and need not be 0. -/
theorem full_board_counts (b : Board) (p : Int) (hwf : WellFormed b) (hfull : FullBoard b)
    (hp : p = BLACK ∨ p = WHITE) :
    count BLACK b + count WHITE b = 64 ∧
    evaluate p b + count BLACK b + count WHITE b = 64 + evaluate p b ∧
    evaluate p b + evaluate (opponent p) b = 0 := by
  have hc := count_black_white_full b hwf hfull
  exact ⟨hc, by linarith, evaluate_opponent b p hp⟩

theorem full_board_counts_witness :
    WellFormed full_black_board ∧ FullBoard full_black_board ∧
    (WHITE = BLACK ∨ WHITE = WHITE) ∧
    (count BLACK full_black_board + count WHITE full_black_board = 64 ∧
     evaluate WHITE full_black_board + count BLACK full_black_board
        + count WHITE full_black_board = 64 + evaluate WHITE full_black_board ∧
     evaluate WHITE full_black_board + evaluate (opponent WHITE) full_black_board = 0) :=
  ⟨by decide, by decide, by decide,
    full_board_counts full_black_board WHITE (by decide) (by decide) (by decide)⟩

/-! ## `make_move` returns at every interior cell -/

theorem make_flips_total (move d p : Int) (b : Board) (hv : validp move ≠ 0)
    (hd : d ∈ ALLDIRECTIONS) : ∃ b', make_flips move d p b = some b' := by
  obtain ⟨w, hw⟩ := would_flip_total move d p b hv hd
  unfold make_flips
  rw [hw]
  dsimp only
  by_cases hw0 : w = 0
  · rw [if_neg (by simpa using hw0)]; exact ⟨b, rfl⟩
  · rw [if_pos hw0]
    obtain ⟨k, hk, hwk⟩ := would_flip_nonzero move d p w b hv hd hw hw0
    have hk6 := flips_length b move d p k hv hd hk
    have hk1 := hk.1
    have e : ∀ j : Nat, move + d + (j : Int) * d = move + ((j + 1 : Nat) : Int) * d := by
      intro j; push_cast; ring
    have hbr : w = move + d + ((k - 1 + 1 : Nat) : Int) * d := by
      rw [hwk, e]
      have : k - 1 + 1 + 1 = k + 1 := by omega
      rw [this]
    rw [hbr]
    obtain ⟨b', hb', _, _⟩ := make_flips_loop_spec d p (dir_ne_zero d hd) (k - 1) 100
      (move + d) b (by omega) (by
        intro j hj
        rw [e]
        by_cases hj0 : j = 0
        · subst hj0
          simpa using neighbour_in_range move d hv hd
        · exact validp_range _ (hk.2.2.1 (j + 1) (by omega) (by omega)).1)
    exact ⟨b', hb'⟩

theorem make_move_loop_total (move p : Int) (hv : validp move ≠ 0) :
    ∀ (ds : List Int), (∀ d ∈ ds, d ∈ ALLDIRECTIONS) → ∀ b : Board,
      ∃ b', make_move_loop move p ds b = some b' := by
  intro ds
  induction ds with
  | nil => intro _ b; exact ⟨b, rfl⟩
  | cons d ds ih =>
    intro hds b
    obtain ⟨b1, hb1⟩ := make_flips_total move d p b hv (hds d (List.mem_cons_self _ _))
    unfold make_move_loop
    rw [hb1]
    exact ih (fun e he => hds e (List.mem_cons_of_mem _ he)) b1

theorem make_move_total (move p : Int) (b : Board) (hv : validp move ≠ 0) :
    ∃ b', make_move move p b = some b' := by
  have hr := validp_range move hv
  unfold make_move
  rw [wr_some b move p hr.1 hr.2]
  exact make_move_loop_total move p hv ALLDIRECTIONS (fun _ h => h) _

/-! ## The master's choice among the candidates -/

theorem last_non_pass_none (cs : List Int) (h : last_non_pass cs = none) :
    ∀ c ∈ cs, c = -1 := by
  induction cs with
  | nil => intro c hc; simp at hc
  | cons a rest ih =>
    unfold last_non_pass at h
    cases hr : last_non_pass rest with
    | some r => rw [hr] at h; simp at h
    | none =>
      rw [hr] at h
      dsimp only at h
      by_cases ha : a ≠ -1
      · rw [if_pos ha] at h; simp at h
      · intro c hc
        rcases List.mem_cons.1 hc with rfl | hc
        · simpa using ha
        · exact ih hr c hc

theorem last_non_pass_mem (cs : List Int) (r : Int) (h : last_non_pass cs = some r) :
    r ∈ cs ∧ r ≠ -1 := by
  induction cs with
  | nil => simp [last_non_pass] at h
  | cons a rest ih =>
    unfold last_non_pass at h
    cases hr : last_non_pass rest with
    | some r' =>
      rw [hr] at h
      have : r' = r := by simpa using h
      subst this
      exact ⟨List.mem_cons_of_mem _ (ih hr).1, (ih hr).2⟩
    | none =>
      rw [hr] at h
      dsimp only at h
      by_cases ha : a ≠ -1
      · rw [if_pos ha] at h
        have : a = r := by simpa using h
        subst this
        exact ⟨List.mem_cons_self _ _, ha⟩
      · rw [if_neg ha] at h; simp at h

theorem bens_select_pass_keep (col : Int) (b : Board) :
    ∀ (cs : List Int) (score bs bm : Int), (∀ c ∈ cs, c = -1) → score ≤ bs →
      bens_select col b cs score bs bm = some bm := by
  intro cs
  induction cs with
  | nil => intro score bs bm _ _; rfl
  | cons c rest ih =>
    intro score bs bm hall hle
    have hc : c = -1 := hall c (List.mem_cons_self _ _)
    unfold bens_select
    rw [if_neg (by simpa using hc), if_neg (by omega)]
    exact ih score bs bm (fun x hx => hall x (List.mem_cons_of_mem _ hx)) hle

theorem bens_select_pass (col : Int) (b : Board) :
    ∀ (cs : List Int) (score bs : Int), (∀ c ∈ cs, c = -1) →
      bens_select col b cs score bs (-1) = some (-1) := by
  intro cs
  induction cs with
  | nil => intro score bs _; rfl
  | cons c rest ih =>
    intro score bs hall
    have hc : c = -1 := hall c (List.mem_cons_self _ _)
    unfold bens_select
    rw [if_neg (by simpa using hc), hc]
    by_cases hs : score > bs
    · rw [if_pos hs]
      exact ih score score (fun x hx => hall x (List.mem_cons_of_mem _ hx))
    · rw [if_neg hs]
      exact ih score bs (fun x hx => hall x (List.mem_cons_of_mem _ hx))

/-- The loop of `bens_strategy` ends with the last candidate that is not -1, whatever the
    scores: `best_move` is overwritten for every such candidate before the comparison. -/
theorem bens_select_last (col : Int) (b : Board) (hp : col = BLACK ∨ col = WHITE) :
    ∀ (cs : List Int) (score bs bm r : Int), (∀ c ∈ cs, c ≠ -1 → validp c ≠ 0) →
      last_non_pass cs = some r → bens_select col b cs score bs bm = some r := by
  intro cs
  induction cs with
  | nil => intro score bs bm r _ h; simp [last_non_pass] at h
  | cons c rest ih =>
    intro score bs bm r hval hlast
    have hval' : ∀ x ∈ rest, x ≠ -1 → validp x ≠ 0 :=
      fun x hx => hval x (List.mem_cons_of_mem _ hx)
    unfold last_non_pass at hlast
    unfold bens_select
    by_cases hc : c ≠ -1
    · rw [if_pos hc]
      obtain ⟨tb, htb⟩ := make_move_total c col b (hval c (List.mem_cons_self _ _) hc)
      obtain ⟨⟨s1, b2⟩, hs1⟩ := minimax_total 1 tb (opponent col) INT_MIN INT_MAX
        (opponent_player col hp)
      rw [htb]
      dsimp only
      rw [hs1]
      dsimp only
      cases hr : last_non_pass rest with
      | some r' =>
        rw [hr] at hlast
        have : r' = r := by simpa using hlast
        subst this
        by_cases hgt : s1 > bs
        · rw [if_pos hgt]; exact ih s1 s1 c r' hval' hr
        · rw [if_neg hgt]; exact ih s1 bs c r' hval' hr
      | none =>
        rw [hr] at hlast
        dsimp only at hlast
        rw [if_pos hc] at hlast
        have : c = r := by simpa using hlast
        subst this
        have hall := last_non_pass_none rest hr
        by_cases hgt : s1 > bs
        · rw [if_pos hgt]; exact bens_select_pass_keep col b rest s1 s1 c hall (le_refl _)
        · rw [if_neg hgt]
          exact bens_select_pass_keep col b rest s1 bs c hall (by omega)
    · rw [if_neg hc]
      cases hr : last_non_pass rest with
      | some r' =>
        rw [hr] at hlast
        have : r' = r := by simpa using hlast
        subst this
        by_cases hgt : score > bs
        · rw [if_pos hgt]; exact ih score score c r' hval' hr
        · rw [if_neg hgt]; exact ih score bs bm r' hval' hr
      | none =>
        rw [hr] at hlast
        dsimp only at hlast
        rw [if_neg hc] at hlast
        simp at hlast

/-- What `bens_strategy` returns for the replies `cs` of `w` workers: the last reply that
    is not -1 (or -1 when there is none, or when there is no legal move). -/
theorem bens_strategy_eq (w : Nat) (hw : 1 ≤ w) (col : Int) (b : Board)
    (hp : col = BLACK ∨ col = WHITE) (ms cs : List Int) (score0 : Int)
    (hlm : legal_moves col b = some ((ms.length : Int) :: ms)) (hlen : cs.length = w)
    (hval : ∀ c ∈ cs, c ≠ -1 → validp c ≠ 0) :
    bens_strategy ((w : Int) + 1) col b cs score0
      = some (if ms.length = 0 then -1 else (last_non_pass cs).getD (-1),
          expected_sends ms w (List.range' 1 w)) := by
  unfold bens_strategy
  rw [hlm]
  dsimp only
  rw [bens_sends_expected w hw ms]
  dsimp only
  have hsub : ((w : Int) + 1 - 1).toNat = w := by
    have : (w : Int) + 1 - 1 = (w : Int) := by ring
    rw [this, Int.toNat_natCast]
  rw [hsub, if_pos hlen]
  cases hl : last_non_pass cs with
  | some r =>
    rw [bens_select_last col b hp cs score0 INT_MIN (-1) r hval hl]
    dsimp only
    by_cases h0 : ms.length = 0
    · rw [if_pos (by exact_mod_cast h0), if_pos h0]
    · rw [if_neg (by exact_mod_cast h0), if_neg h0]
      rfl
  | none =>
    rw [bens_select_pass col b cs score0 INT_MIN (last_non_pass_none cs hl)]
    dsimp only
    by_cases h0 : ms.length = 0
    · rw [if_pos (by exact_mod_cast h0), if_pos h0]
    · rw [if_neg (by exact_mod_cast h0), if_neg h0]
      rfl

/-- C11 (failing input). On `before_pass_board` with White to move and three workers, the
    replies 46, -1, 78 re-score to 2 (for 46) and -12 (for 78). The strictly greatest
    re-score belongs to 46, but `bens_strategy` returns 78, the last reply that is not
    -1, for every initial value of the uninitialised `score`. -/
theorem bens_strategy_last_candidate_wins :
    legal_moves WHITE before_pass_board = some [3, 46, 68, 78] ∧
    ((make_move 46 WHITE before_pass_board).bind
        (fun t => minimax 1 t (opponent WHITE) INT_MIN INT_MAX)).map Prod.fst = some 2 ∧
    ((make_move 78 WHITE before_pass_board).bind
        (fun t => minimax 1 t (opponent WHITE) INT_MIN INT_MAX)).map Prod.fst = some (-12) ∧
    ∀ score0 : Int,
      (bens_strategy 4 WHITE before_pass_board [46, -1, 78] score0).map Prod.fst
        = some 78 := by
  refine ⟨by decide, by decide, by decide, ?_⟩
  intro score0
  have h := bens_strategy_eq 3 (by decide) WHITE before_pass_board (by decide)
    [46, 68, 78] [46, -1, 78] score0 (by decide) rfl (by decide)
  rw [show ((3 : Nat) : Int) + 1 = 4 from by norm_num] at h
  rw [h]
  rfl

/-! ## One round with the workers -/

theorem worker_replies_expected (col : Int) (b : Board) (ms : List Int) (w : Nat)
    (f : Nat → Int) :
    ∀ l : List Nat,
      (∀ i ∈ l, run_worker col b ((expected_chunk ms w i).length : Int)
        (expected_chunk ms w i) = some (f i)) →
      worker_replies col b (expected_sends ms w l) = some (l.map f) := by
  intro l
  induction l with
  | nil => intro _; rfl
  | cons i l ih =>
    intro h
    unfold expected_sends worker_replies
    rw [h i (List.mem_cons_self _ _), ih (fun j hj => h j (List.mem_cons_of_mem _ hj))]
    rfl

theorem mem_expected_sends (ms : List Int) (w : Nat) :
    ∀ (l : List Nat) (i : Nat), i ∈ l →
      ((i : Int), [((expected_chunk ms w i).length : Int)]) ∈ expected_sends ms w l := by
  intro l
  induction l with
  | nil => intro i hi; simp at hi
  | cons a l ih =>
    intro i hi
    unfold expected_sends
    rcases List.mem_cons.1 hi with rfl | hi
    · exact List.mem_cons_self _ _
    · exact List.mem_cons_of_mem _ (List.mem_cons_of_mem _ (ih i hi))

/-- One round in closed form: the sends follow the partition rule, every worker answers
    with `f i`, and the master returns the last answer that is not -1. -/
theorem bens_round_eq (w : Nat) (hw : 1 ≤ w) (col : Int) (b : Board)
    (hp : col = BLACK ∨ col = WHITE) (ms : List Int) (score0 : Int) (f : Nat → Int)
    (hlm : legal_moves col b = some ((ms.length : Int) :: ms))
    (hf : ∀ i ∈ List.range' 1 w, run_worker col b ((expected_chunk ms w i).length : Int)
      (expected_chunk ms w i) = some (f i))
    (hval : ∀ i ∈ List.range' 1 w, f i ≠ -1 → validp (f i) ≠ 0) :
    bens_round ((w : Int) + 1) col b score0
      = some (if ms.length = 0 then -1
          else (last_non_pass ((List.range' 1 w).map f)).getD (-1),
          expected_sends ms w (List.range' 1 w)) := by
  unfold bens_round
  rw [hlm]
  dsimp only
  rw [bens_sends_expected w hw ms]
  dsimp only
  rw [worker_replies_expected col b ms w f _ hf]
  dsimp only
  apply bens_strategy_eq w hw col b hp ms _ score0 hlm (by simp)
  intro c hc hne
  rw [List.mem_map] at hc
  obtain ⟨i, hi, rfl⟩ := hc
  exact hval i hi hne

theorem legal_moves_none (col : Int) (b : Board) (hno : ∀ m : Int, legalp m col b = some 0) :
    legal_moves col b = some (((([] : List Int).length : Nat) : Int) :: []) := by
  rw [legal_moves_eq, legal_filter_nil col b hno]

/-- C12 (counterexample). On `forced_pass_board` Black has no legal move; with two workers
    `bens_strategy` returns -1, but the master has sent each worker the count 0 and an
    empty move list: the list of sends is not empty. -/
theorem no_moves_round_sends_messages :
    WellFormed forced_pass_board ∧
    legal_moves BLACK forced_pass_board = some [0] ∧
    bens_round 3 BLACK forced_pass_board 0
      = some (-1, [(1, [0]), (1, []), (2, [0]), (2, [])]) ∧
    (bens_round 3 BLACK forced_pass_board 0).map Prod.snd ≠ some [] := by
  refine ⟨by decide, by decide, by decide, by decide⟩

/-- C12 (amended). On a well-formed board on which `my_colour` has no legal move, with
    `w >= 1` workers, `bens_strategy` sends every worker the count 0 (the "0 moves"
    marker), every worker answers -1, and `bens_strategy` returns the pass sentinel -1. -/
theorem bens_round_no_moves (w : Nat) (b : Board) (col : Int) (score0 : Int) (hw : 1 ≤ w)
    (_hwf : WellFormed b) (hp : col = BLACK ∨ col = WHITE)
    (hno : ∀ m : Int, legalp m col b = some 0) :
    ∃ sends, bens_round ((w : Int) + 1) col b score0 = some (-1, sends) ∧
      (∀ j : Nat, 1 ≤ j → j ≤ w → ((j : Int), [(0 : Int)]) ∈ sends) ∧
      sends ≠ [] ∧
      ∃ replies, worker_replies col b sends = some replies ∧ replies.length = w ∧
        ∀ r ∈ replies, r = -1 := by
  have hlm := legal_moves_none col b hno
  have hchunk : ∀ i : Nat, expected_chunk [] w i = [] :=
    fun i => expected_chunk_few [] w i (by simpa using hw)
  have hf : ∀ i ∈ List.range' 1 w,
      run_worker col b ((expected_chunk [] w i).length : Int) (expected_chunk [] w i)
        = some ((fun _ => (-1 : Int)) i) := by
    intro i _
    rw [hchunk i]
    rfl
  have hround := bens_round_eq w hw col b hp [] score0 (fun _ => -1) hlm hf
    (fun i _ h => absurd rfl h)
  have hmem : ∀ j : Nat, 1 ≤ j → j ≤ w →
      ((j : Int), [(0 : Int)]) ∈ expected_sends [] w (List.range' 1 w) := by
    intro j hj1 hjw
    have := mem_expected_sends [] w (List.range' 1 w) j (by rw [List.mem_range'_1]; omega)
    rw [hchunk j] at this
    simpa using this
  refine ⟨expected_sends [] w (List.range' 1 w), ?_, hmem, ?_, ?_⟩
  · rw [hround]; rfl
  · intro hnil
    have := hmem 1 (le_refl _) hw
    rw [hnil] at this
    simp at this
  · refine ⟨(List.range' 1 w).map (fun _ => (-1 : Int)),
      worker_replies_expected col b [] w (fun _ => -1) _ hf, by simp, ?_⟩
    intro r hr
    rw [List.mem_map] at hr
    obtain ⟨_, _, rfl⟩ := hr
    rfl

theorem bens_round_no_moves_witness :
    (1 ≤ 2) ∧ WellFormed forced_pass_board ∧ (BLACK = BLACK ∨ BLACK = WHITE) ∧
    (∀ m : Int, legalp m BLACK forced_pass_board = some 0) ∧
    ∃ sends, bens_round (((2 : Nat) : Int) + 1) BLACK forced_pass_board 5 = some (-1, sends) ∧
      (∀ j : Nat, 1 ≤ j → j ≤ 2 → ((j : Int), [(0 : Int)]) ∈ sends) ∧
      sends ≠ [] ∧
      ∃ replies, worker_replies BLACK forced_pass_board sends = some replies ∧
        replies.length = 2 ∧ ∀ r ∈ replies, r = -1 :=
  ⟨by decide, by decide, by decide, legalp_zero_of_scan BLACK forced_pass_board (by decide),
    bens_round_no_moves 2 forced_pass_board BLACK 5 (by decide) (by decide) (by decide)
      (legalp_zero_of_scan BLACK forced_pass_board (by decide))⟩

/-! ## What a worker can answer -/

theorem worker_loop_spec (col : Int) (b : Board) (hp : col = BLACK ∨ col = WHITE) :
    ∀ (ms : List Int) (bm bs : Int), (∀ m ∈ ms, validp m ≠ 0) →
      ∃ r, worker_loop col b ms bm bs = some r ∧ (r = bm ∨ r ∈ ms) := by
  intro ms
  induction ms with
  | nil => intro bm bs _; exact ⟨bm, rfl, Or.inl rfl⟩
  | cons m ms ih =>
    intro bm bs hval
    obtain ⟨tb, htb⟩ := make_move_total m col b (hval m (List.mem_cons_self _ _))
    obtain ⟨⟨s, b2⟩, hs⟩ := minimax_total 5 tb (opponent col) INT_MIN INT_MAX
      (opponent_player col hp)
    have hval' : ∀ x ∈ ms, validp x ≠ 0 := fun x hx => hval x (List.mem_cons_of_mem _ hx)
    unfold worker_loop
    rw [htb]
    dsimp only
    rw [hs]
    dsimp only
    by_cases hgt : s > bs
    · rw [if_pos hgt]
      obtain ⟨r, hr, hmem⟩ := ih m s hval'
      refine ⟨r, hr, Or.inr ?_⟩
      rcases hmem with rfl | h
      · exact List.mem_cons_self _ _
      · exact List.mem_cons_of_mem _ h
    · rw [if_neg hgt]
      obtain ⟨r, hr, hmem⟩ := ih bm bs hval'
      refine ⟨r, hr, ?_⟩
      rcases hmem with h | h
      · exact Or.inl h
      · exact Or.inr (List.mem_cons_of_mem _ h)

/-- A worker answers -1 or one of the moves it was sent. -/
theorem run_worker_spec (col : Int) (b : Board) (hp : col = BLACK ∨ col = WHITE)
    (ms : List Int) (hval : ∀ m ∈ ms, validp m ≠ 0) :
    ∃ r, run_worker col b (ms.length : Int) ms = some r ∧ (r = -1 ∨ r ∈ ms) := by
  unfold run_worker
  by_cases h0 : (ms.length : Int) ≠ 0
  · rw [if_pos h0, if_pos ⟨by rw [Int.toNat_natCast], Int.natCast_nonneg _⟩,
      Int.toNat_natCast, List.take_length]
    exact worker_loop_spec col b hp ms (-1) INT_MIN hval
  · rw [if_neg h0]
    exact ⟨-1, rfl, Or.inl rfl⟩

theorem run_worker_single (col : Int) (b tb b' : Board) (m s : Int)
    (hmk : make_move m col b = some tb)
    (hs : minimax 5 tb (opponent col) INT_MIN INT_MAX = some (s, b')) (hgt : s > INT_MIN) :
    run_worker col b 1 [m] = some m := by
  unfold run_worker
  have h1 : (1 : Int).toNat = 1 := rfl
  rw [if_pos (by decide), if_pos ⟨by rw [h1]; simp, by decide⟩, h1]
  have : ([m] : List Int).take 1 = [m] := rfl
  rw [this]
  unfold worker_loop
  rw [hmk]
  dsimp only
  rw [hs]
  dsimp only
  rw [if_pos hgt]
  rfl

/-! ## A lower bound for the search -/

theorem max_ge_right (x y : Int) : y ≤ MyPlayer.max x y := by
  unfold MyPlayer.max; split <;> omega

theorem max_ge_left (x y : Int) : x ≤ MyPlayer.max x y := by
  unfold MyPlayer.max; split <;> omega

theorem minimax_max_loop_ge (search : Board → Int → Int → Option (Int × Board)) (p : Int) :
    ∀ (ms : List Int) (b : Board) (maxEval alpha beta s : Int) (b' : Board),
      minimax_max_loop search p ms b maxEval alpha beta = some (s, b') → maxEval ≤ s := by
  intro ms
  induction ms with
  | nil =>
    intro b maxEval alpha beta s b' h
    simp only [minimax_max_loop, Option.some.injEq, Prod.mk.injEq] at h
    omega
  | cons m ms ih =>
    intro b maxEval alpha beta s b' h
    unfold minimax_max_loop at h
    cases hmk : make_move m p b with
    | none => rw [hmk] at h; simp at h
    | some b1 =>
      rw [hmk] at h
      dsimp only at h
      cases hsr : search b1 alpha beta with
      | none => rw [hsr] at h; simp at h
      | some r =>
        obtain ⟨ev, b2⟩ := r
        rw [hsr] at h
        dsimp only at h
        have hmx := max_ge_left maxEval ev
        by_cases hc : beta ≤ MyPlayer.max alpha ev
        · rw [if_pos hc] at h
          simp only [Option.some.injEq, Prod.mk.injEq] at h
          omega
        · rw [if_neg hc] at h
          have := ih b2 _ _ beta s b' h
          omega

/-- When the line of first legal moves meets no forced pass, the search returns a real
    evaluation, not the sentinel `INT_MIN`. -/
theorem first_line_bound :
    ∀ (d : Nat) (b : Board) (p alpha beta s : Int) (b' : Board), (p = BLACK ∨ p = WHITE) →
      first_line d b p = true → minimax d b p alpha beta = some (s, b') → -390 ≤ s := by
  intro d
  induction d with
  | zero =>
    intro b p alpha beta s b' _ _ h
    simp only [minimax, Option.some.injEq, Prod.mk.injEq] at h
    rw [← h.1]; exact (evaluate_bound p b).1
  | succ n ih =>
    intro b p alpha beta s b' hp hfl h
    rw [minimax_succ] at h
    unfold first_line at hfl
    by_cases hover : is_game_over_move b = some 1
    · rw [if_pos hover] at h
      simp only [Option.some.injEq, Prod.mk.injEq] at h
      rw [← h.1]; exact (evaluate_bound p b).1
    · rw [if_neg hover] at h hfl
      have hp0 : p ≠ 0 := by rcases hp with rfl | rfl <;> decide
      rw [if_pos hp0] at h
      rw [legal_moves_eq] at hfl
      generalize scan_squares.filter (fun m => decide (legalp m p b = some 1)) = l at h hfl
      cases l with
      | nil => simp at hfl
      | cons m rest =>
        dsimp only at hfl
        unfold minimax_max_loop at h
        cases hmk : make_move m p b with
        | none => rw [hmk] at hfl; simp at hfl
        | some b1 =>
          rw [hmk] at h hfl
          dsimp only at h hfl
          cases hsr : minimax n b1 (opponent p) alpha beta with
          | none => rw [hsr] at h; simp at h
          | some r =>
            obtain ⟨ev, b2⟩ := r
            rw [hsr] at h
            dsimp only at h
            have hev := ih b1 (opponent p) alpha beta ev b2 (opponent_player p hp) hfl hsr
            have hmx := max_ge_right INT_MIN ev
            by_cases hc : beta ≤ MyPlayer.max alpha ev
            · rw [if_pos hc] at h
              simp only [Option.some.injEq, Prod.mk.injEq] at h
              omega
            · rw [if_neg hc] at h
              have := minimax_max_loop_ge _ p rest b2 _ _ beta s b' h
              omega

/-! ## The opening position with four workers -/

theorem last_non_pass_four (a b c d : Int) (hd : d ≠ -1) :
    last_non_pass [a, b, c, d] = some d := by
  simp [last_non_pass, hd]

theorem opening_worker_four :
    run_worker BLACK initialise_board 1 [65] = some 65 := by
  have hfl : (make_move 65 BLACK initialise_board).map (fun tb => first_line 5 tb WHITE)
      = some true := by decide
  cases hmk : make_move 65 BLACK initialise_board with
  | none => rw [hmk] at hfl; simp at hfl
  | some tb =>
    rw [hmk] at hfl
    have hline : first_line 5 tb WHITE = true := by simpa using hfl
    obtain ⟨⟨s, b'⟩, hs⟩ := minimax_total 5 tb (opponent BLACK) INT_MIN INT_MAX
      (opponent_player BLACK (Or.inl rfl))
    have hbound := first_line_bound 5 tb WHITE INT_MIN INT_MAX s b' (Or.inr rfl) hline hs
    exact run_worker_single BLACK initialise_board tb b' 65 s hmk hs
      (by unfold INT_MIN; omega)

/-- C13. On the board of `initialise_board`, with Black to move and four workers
    (`MPI_SIZE = 5`), every worker answering what `run_worker` computes for its chunk,
    `bens_strategy` returns one of the opening moves 34, 43, 56, 65 (move strings starting
    "23", "32", "45", "54") and not the pass sentinel, whatever the initial value of its
    uninitialised `score`. -/
theorem opening_round_move (score0 : Int) :
    ∃ (x : Int) (sends : List (Int × List Int)),
      bens_round 5 BLACK initialise_board score0 = some (x, sends) ∧
      (x = 34 ∨ x = 43 ∨ x = 56 ∨ x = 65) ∧ x ≠ -1 ∧
      ((get_move_string x).take 2 = [50, 51] ∨ (get_move_string x).take 2 = [51, 50] ∨
        (get_move_string x).take 2 = [52, 53] ∨ (get_move_string x).take 2 = [53, 52]) := by
  have hlm : legal_moves BLACK initialise_board
      = some (((([34, 43, 56, 65] : List Int).length : Nat) : Int) :: [34, 43, 56, 65]) := by
    decide
  have hchunk : ∀ i ∈ List.range' 1 4,
      (expected_chunk [34, 43, 56, 65] 4 i).length = 1 ∧
      ∀ m ∈ expected_chunk [34, 43, 56, 65] 4 i, validp m ≠ 0 := by decide
  have hspec : ∀ i ∈ List.range' 1 4, ∃ r,
      run_worker BLACK initialise_board ((expected_chunk [34, 43, 56, 65] 4 i).length : Int)
        (expected_chunk [34, 43, 56, 65] 4 i) = some r ∧
      (r = -1 ∨ r ∈ expected_chunk [34, 43, 56, 65] 4 i) :=
    fun i hi => run_worker_spec BLACK initialise_board (Or.inl rfl) _ (hchunk i hi).2
  have hf : ∀ i ∈ List.range' 1 4,
      run_worker BLACK initialise_board ((expected_chunk [34, 43, 56, 65] 4 i).length : Int)
        (expected_chunk [34, 43, 56, 65] 4 i)
      = some ((fun i => (run_worker BLACK initialise_board
          ((expected_chunk [34, 43, 56, 65] 4 i).length : Int)
          (expected_chunk [34, 43, 56, 65] 4 i)).getD (-1)) i) := by
    intro i hi
    obtain ⟨r, hr, _⟩ := hspec i hi
    dsimp only
    rw [hr]; rfl
  have hval : ∀ i ∈ List.range' 1 4,
      (fun i => (run_worker BLACK initialise_board
          ((expected_chunk [34, 43, 56, 65] 4 i).length : Int)
          (expected_chunk [34, 43, 56, 65] 4 i)).getD (-1)) i ≠ -1 →
      validp ((fun i => (run_worker BLACK initialise_board
          ((expected_chunk [34, 43, 56, 65] 4 i).length : Int)
          (expected_chunk [34, 43, 56, 65] 4 i)).getD (-1)) i) ≠ 0 := by
    intro i hi hne
    obtain ⟨r, hr, hmem⟩ := hspec i hi
    dsimp only at hne ⊢
    rw [hr] at hne ⊢
    rcases hmem with h | h
    · exact absurd h hne
    · exact (hchunk i hi).2 r h
  have hround := bens_round_eq 4 (by decide) BLACK initialise_board (Or.inl rfl)
    [34, 43, 56, 65] score0 _ hlm hf hval
  rw [show ((4 : Nat) : Int) + 1 = 5 from by norm_num] at hround
  have h4 : (run_worker BLACK initialise_board
      ((expected_chunk [34, 43, 56, 65] 4 4).length : Int)
      (expected_chunk [34, 43, 56, 65] 4 4)).getD (-1) = 65 := by
    have e : expected_chunk [34, 43, 56, 65] 4 4 = [65] := by decide
    rw [e]
    have e1 : ((([65] : List Int).length : Nat) : Int) = 1 := rfl
    rw [e1, opening_worker_four]
    rfl
  have hlist : (List.range' 1 4) = [1, 2, 3, 4] := rfl
  rw [hlist] at hround
  simp only [List.map_cons, List.map_nil] at hround
  rw [h4, last_non_pass_four _ _ _ 65 (by decide)] at hround
  refine ⟨65, _, hround, Or.inr (Or.inr (Or.inr rfl)), by decide, Or.inr (Or.inr (Or.inr ?_))⟩
  decide

/-! ## `gen_move_master` -/

theorem strncpy_pass (n : Nat) (hn : 6 ≤ n) : (strncpy PASS n).take 6 = PASS := by
  unfold strncpy
  rw [List.take_take, Nat.min_eq_left hn]
  have h6 : PASS.length = 6 := rfl
  rw [← h6, List.take_left]

/-- C14. Let `loc` be the value `bens_strategy` returns (`MOVEBUFSIZE >= 6`, so that the
    pass token fits the buffer). If `loc` is not -1, `gen_move_master` writes the move
    string of `loc` and leaves the board as `make_move(loc, my_colour)` leaves the board
    it was given (for an interior cell `loc` this call returns). If `loc` is -1 it writes
    the pass token `"pass\n"` and the board is unchanged. -/
theorem gen_move_master_spec (MOVEBUFSIZE : Nat) (MPI_SIZE my_colour : Int) (b : Board)
    (best_moves : List Int) (score0 loc : Int) (sends : List (Int × List Int))
    (hbuf : 6 ≤ MOVEBUFSIZE)
    (hloc : bens_strategy MPI_SIZE my_colour b best_moves score0 = some (loc, sends)) :
    (loc ≠ -1 →
      gen_move_master MOVEBUFSIZE MPI_SIZE my_colour b best_moves score0
        = (make_move loc my_colour b).map (fun b' => (get_move_string loc, b'))) ∧
    (loc ≠ -1 → validp loc ≠ 0 →
      ∃ b', make_move loc my_colour b = some b' ∧
        gen_move_master MOVEBUFSIZE MPI_SIZE my_colour b best_moves score0
          = some (get_move_string loc, b')) ∧
    (loc = -1 →
      gen_move_master MOVEBUFSIZE MPI_SIZE my_colour b best_moves score0
        = some (strncpy PASS MOVEBUFSIZE, b) ∧
      (strncpy PASS MOVEBUFSIZE).take 6 = PASS) := by
  have hmove : loc ≠ -1 →
      gen_move_master MOVEBUFSIZE MPI_SIZE my_colour b best_moves score0
        = (make_move loc my_colour b).map (fun b' => (get_move_string loc, b')) := by
    intro hne
    unfold gen_move_master
    rw [hloc]
    dsimp only
    rw [if_neg hne, if_pos (by omega)]
    cases make_move loc my_colour b <;> rfl
  refine ⟨hmove, ?_, ?_⟩
  · intro hne hv
    obtain ⟨b', hb'⟩ := make_move_total loc my_colour b hv
    refine ⟨b', hb', ?_⟩
    rw [hmove hne, hb']
    rfl
  · intro hpass
    refine ⟨?_, strncpy_pass MOVEBUFSIZE hbuf⟩
    unfold gen_move_master
    rw [hloc]
    dsimp only
    rw [if_pos hpass]

theorem gen_move_master_spec_witness :
    (6 ≤ 6) ∧
    bens_strategy 4 WHITE before_pass_board [46, -1, 78] 0
      = some (78, [(1, [1]), (1, [46]), (2, [1]), (2, [68]), (3, [1]), (3, [78])]) ∧
    (((78 : Int) ≠ -1 →
      gen_move_master 6 4 WHITE before_pass_board [46, -1, 78] 0
        = (make_move 78 WHITE before_pass_board).map (fun b' => (get_move_string 78, b'))) ∧
    ((78 : Int) ≠ -1 → validp 78 ≠ 0 →
      ∃ b', make_move 78 WHITE before_pass_board = some b' ∧
        gen_move_master 6 4 WHITE before_pass_board [46, -1, 78] 0
          = some (get_move_string 78, b')) ∧
    ((78 : Int) = -1 →
      gen_move_master 6 4 WHITE before_pass_board [46, -1, 78] 0
        = some (strncpy PASS 6, before_pass_board) ∧
      (strncpy PASS 6).take 6 = PASS)) :=
  ⟨by decide, by decide,
    gen_move_master_spec 6 4 WHITE before_pass_board [46, -1, 78] 0 78
      [(1, [1]), (1, [46]), (2, [1]), (2, [68]), (3, [1]), (3, [78])] (by decide)
      (by decide)⟩

/-! ## `opponent` -/

/-- C22. For a player `p` in BLACK/WHITE, `opponent p` is again BLACK or WHITE, differs
    from `p`, and `opponent (opponent p) = p`. -/
theorem opponent_involution (p : Int) (hp : p = BLACK ∨ p = WHITE) :
    (opponent p = BLACK ∨ opponent p = WHITE) ∧ opponent p ≠ p ∧
      opponent (opponent p) = p := by
  rcases hp with rfl | rfl <;> decide

theorem opponent_involution_witness :
    (BLACK = BLACK ∨ BLACK = WHITE) ∧
    ((opponent BLACK = BLACK ∨ opponent BLACK = WHITE) ∧ opponent BLACK ≠ BLACK ∧
      opponent (opponent BLACK) = BLACK) :=
  ⟨by decide, opponent_involution BLACK (by decide)⟩

/-! ## The board invariant -/

theorem flipped_valid (b : Board) (hwf : WellFormed b) (move p : Int) (hv : validp move ≠ 0)
    (hp : p = BLACK ∨ p = WHITE) (x : Int) (h : Flipped b move p ALLDIRECTIONS x) :
    validp x ≠ 0 := by
  obtain ⟨d, hd, k, j, hk, hj1, hjk, rfl⟩ := h
  obtain ⟨_, hfirst, hrun, _, _⟩ := hk
  by_cases hj : j = 1
  · subst hj
    have hr := neighbour_in_range move d hv hd
    have e : move + ((1 : Nat) : Int) * d = move + d := by push_cast; ring
    rw [e]
    apply wf_piece_valid b hwf _ hr.1 hr.2
    rw [hfirst]
    exact opponent_player p hp
  · exact (hrun j (by omega) hjk).1

/-- `make_move` at an interior cell for a real player keeps the board well-formed. -/
theorem make_move_well_formed (b b1 : Board) (move p : Int) (hwf : WellFormed b)
    (hv : validp move ≠ 0) (hp : p = BLACK ∨ p = WHITE)
    (hmk : make_move move p b = some b1) : WellFormed b1 := by
  obtain ⟨b', hb', hmove, hfl, hrest⟩ := make_move_spec b move p hv (opponent_ne_self p hp)
  rw [hmk] at hb'
  have hbb : b1 = b' := by simpa using hb'
  subst hbb
  intro i hi
  have hcell := hwf i hi
  by_cases hvi : validp (i : Int) ≠ 0
  · rw [if_pos hvi] at hcell ⊢
    by_cases hx : (i : Int) = move
    · rw [hx, hmove]
      rcases hp with rfl | rfl
      · right; left; rfl
      · right; right; rfl
    · by_cases hf : Flipped b move p ALLDIRECTIONS (i : Int)
      · rw [hfl _ hf]
        rcases hp with rfl | rfl
        · right; left; rfl
        · right; right; rfl
      · rw [hrest _ hx hf]; exact hcell
  · rw [if_neg hvi] at hcell ⊢
    have hx : (i : Int) ≠ move := fun h => hvi (h ▸ hv)
    have hf : ¬ Flipped b move p ALLDIRECTIONS (i : Int) :=
      fun h => hvi (flipped_valid b hwf move p hv hp _ h)
    rw [hrest _ hx hf]; exact hcell

theorem reachable_well_formed (b : Board) (h : Reachable b) : WellFormed b := by
  induction h with
  | init => decide
  | step b b1 move player _ hv hp hmk ih =>
    exact make_move_well_formed b b1 move player ih hv hp hmk

theorem initialise_board_cells :
    initialise_board 44 = WHITE ∧ initialise_board 55 = WHITE ∧
    initialise_board 45 = BLACK ∧ initialise_board 54 = BLACK ∧
    (∀ i : Nat, i < 100 → validp (i : Int) = 0 → initialise_board i = OUTER) ∧
    (∀ i : Nat, i < 100 → validp (i : Int) ≠ 0 →
      (i = 44 ∨ i = 45 ∨ i = 54 ∨ i = 55 ∨ initialise_board i = EMPTY)) := by
  refine ⟨by decide, by decide, by decide, by decide, by decide, by decide⟩

/-- C21. The board of `initialise_board` has `OUTER` on every perimeter cell, White on 44
    and 55, Black on 45 and 54, and `EMPTY` on every other interior cell. Every board
    reachable from it by `make_move` calls with an interior cell and a player in
    BLACK/WHITE has `OUTER` on every perimeter cell and on no interior cell, and a further
    such call returns. -/
theorem reachable_board_invariant (b : Board) (h : Reachable b) :
    (initialise_board 44 = WHITE ∧ initialise_board 55 = WHITE ∧
      initialise_board 45 = BLACK ∧ initialise_board 54 = BLACK ∧
      (∀ i : Nat, i < 100 → validp (i : Int) = 0 → initialise_board i = OUTER) ∧
      (∀ i : Nat, i < 100 → validp (i : Int) ≠ 0 →
        (i = 44 ∨ i = 45 ∨ i = 54 ∨ i = 55 ∨ initialise_board i = EMPTY))) ∧
    (∀ i : Int, 0 ≤ i → i < 100 →
      (validp i = 0 → b i = OUTER) ∧ (validp i ≠ 0 → b i ≠ OUTER)) ∧
    (∀ move player : Int, validp move ≠ 0 → (player = BLACK ∨ player = WHITE) →
      ∃ b1, make_move move player b = some b1 ∧ Reachable b1) := by
  have hwf := reachable_well_formed b h
  refine ⟨initialise_board_cells, ?_, ?_⟩
  · intro i h0 h1
    have hcell := wf_cell b hwf i h0 h1
    constructor
    · intro hv
      rw [if_neg (by simpa using hv)] at hcell
      exact hcell
    · intro hv
      rw [if_pos hv] at hcell
      rcases hcell with he | he | he <;> rw [he] <;> decide
  · intro move player hv hp
    obtain ⟨b1, hb1⟩ := make_move_total move player b hv
    exact ⟨b1, hb1, Reachable.step b b1 move player h hv hp hb1⟩

theorem reachable_board_invariant_witness :
    Reachable initialise_board ∧
    ((initialise_board 44 = WHITE ∧ initialise_board 55 = WHITE ∧
      initialise_board 45 = BLACK ∧ initialise_board 54 = BLACK ∧
      (∀ i : Nat, i < 100 → validp (i : Int) = 0 → initialise_board i = OUTER) ∧
      (∀ i : Nat, i < 100 → validp (i : Int) ≠ 0 →
        (i = 44 ∨ i = 45 ∨ i = 54 ∨ i = 55 ∨ initialise_board i = EMPTY))) ∧
    (∀ i : Int, 0 ≤ i → i < 100 →
      (validp i = 0 → initialise_board i = OUTER) ∧
      (validp i ≠ 0 → initialise_board i ≠ OUTER)) ∧
    (∀ move player : Int, validp move ≠ 0 → (player = BLACK ∨ player = WHITE) →
      ∃ b1, make_move move player initialise_board = some b1 ∧ Reachable b1)) :=
  ⟨Reachable.init, reachable_board_invariant initialise_board Reachable.init⟩

/-! ## The coordinator only returns legal moves -/

theorem expected_chunk_subset (ms : List Int) (w i : Nat) :
    ∀ m ∈ expected_chunk ms w i, m ∈ ms := by
  intro m hm
  unfold expected_chunk at hm
  by_cases h1 : ms.length < w
  · rw [if_pos h1] at hm; exact hm
  · rw [if_neg h1] at hm
    by_cases h2 : i = w
    · rw [if_pos h2] at hm; exact List.mem_of_mem_drop hm
    · rw [if_neg h2] at hm
      exact List.mem_of_mem_drop (List.mem_of_mem_take hm)

/-- C23. On a well-formed board, for a colour in BLACK/WHITE and `w >= 1` workers, every
    worker answering what `run_worker` computes for the chunk it is sent, `bens_strategy`
    returns, and the value it returns is the pass sentinel -1 or a cell for which `legalp`
    holds for `my_colour` on the master's board. -/
theorem bens_round_legal (w : Nat) (b : Board) (col score0 : Int) (hw : 1 ≤ w)
    (_hwf : WellFormed b) (hp : col = BLACK ∨ col = WHITE) :
    ∃ (x : Int) (sends : List (Int × List Int)),
      bens_round ((w : Int) + 1) col b score0 = some (x, sends) ∧
      (x = -1 ∨ legalp x col b = some 1) := by
  have hlm := legal_moves_eq col b
  generalize hms : scan_squares.filter (fun m => decide (legalp m col b = some 1)) = ms at hlm
  have hlegal : ∀ m ∈ ms, legalp m col b = some 1 := by
    intro m hm
    rw [← hms, List.mem_filter] at hm
    simpa using hm.2
  have hvalid : ∀ m ∈ ms, validp m ≠ 0 := by
    intro m hm
    rw [← hms] at hm
    exact legal_filter_valid col b m hm
  have hspec : ∀ i : Nat, ∃ r,
      run_worker col b ((expected_chunk ms w i).length : Int) (expected_chunk ms w i)
        = some r ∧ (r = -1 ∨ r ∈ expected_chunk ms w i) :=
    fun i => run_worker_spec col b hp _
      (fun m hm => hvalid m (expected_chunk_subset ms w i m hm))
  have hreply : ∀ i : Nat,
      (run_worker col b ((expected_chunk ms w i).length : Int)
        (expected_chunk ms w i)).getD (-1) = -1 ∨
      (run_worker col b ((expected_chunk ms w i).length : Int)
        (expected_chunk ms w i)).getD (-1) ∈ ms := by
    intro i
    obtain ⟨r, hr, hmem⟩ := hspec i
    rw [hr]
    rcases hmem with h | h
    · left; exact h
    · right; exact expected_chunk_subset ms w i r h
  have hround := bens_round_eq w hw col b hp ms score0
    (fun i => (run_worker col b ((expected_chunk ms w i).length : Int)
      (expected_chunk ms w i)).getD (-1)) hlm
    (by
      intro i _
      obtain ⟨r, hr, _⟩ := hspec i
      dsimp only
      rw [hr]; rfl)
    (by
      intro i _ hne
      rcases hreply i with h | h
      · exact absurd h hne
      · exact hvalid _ h)
  refine ⟨_, _, hround, ?_⟩
  by_cases h0 : ms.length = 0
  · rw [if_pos h0]; left; rfl
  · rw [if_neg h0]
    cases hl : last_non_pass ((List.range' 1 w).map
        (fun i => (run_worker col b ((expected_chunk ms w i).length : Int)
          (expected_chunk ms w i)).getD (-1))) with
    | none => left; rfl
    | some r =>
      obtain ⟨hmem, hne⟩ := last_non_pass_mem _ r hl
      rw [List.mem_map] at hmem
      obtain ⟨i, _, hi⟩ := hmem
      right
      rcases hreply i with h | h
      · rw [hi] at h; exact absurd h hne
      · rw [hi] at h
        exact hlegal r h

theorem bens_round_legal_witness :
    (1 ≤ 3) ∧ WellFormed before_pass_board ∧ (WHITE = BLACK ∨ WHITE = WHITE) ∧
    ∃ (x : Int) (sends : List (Int × List Int)),
      bens_round (((3 : Nat) : Int) + 1) WHITE before_pass_board 0 = some (x, sends) ∧
      (x = -1 ∨ legalp x WHITE before_pass_board = some 1) :=
  ⟨by decide, by decide, by decide,
    bens_round_legal 3 before_pass_board WHITE 0 (by decide) (by decide) (by decide)⟩

/-! ## Only the maximising branch runs -/

theorem maximising_minimax_succ (d : Nat) (b : Board) (p alpha beta : Int) :
    maximising_minimax (d + 1) b p alpha beta =
      if is_game_over_move b = some 1 then some (evaluate p b, b)
      else
        minimax_max_loop (fun b a be => maximising_minimax d b (opponent p) a be) p
          (scan_squares.filter (fun m => decide (legalp m p b = some 1))) b INT_MIN alpha beta := by
  rw [maximising_minimax]
  rcases is_game_over_move_value b with h | h
  · rw [h]
    dsimp only
    rw [if_neg (by simp), if_neg (by simp), legal_moves_eq]
    dsimp only
    rw [process_moves_legal]
  · rw [h]
    dsimp only
    rw [if_pos (by decide), if_pos rfl]

theorem minimax_fuel_succ (fuel : Nat) (depth : Int) (b : Board) (p alpha beta : Int) :
    minimax_fuel (fuel + 1) depth b p alpha beta =
      if depth = 0 then some (evaluate p b, b)
      else if is_game_over_move b = some 1 then some (evaluate p b, b)
      else if p ≠ 0 then
        minimax_max_loop (fun b a be => minimax_fuel fuel (depth - 1) b (opponent p) a be) p
          (scan_squares.filter (fun m => decide (legalp m p b = some 1))) b INT_MIN alpha beta
      else
        minimax_min_loop (fun b a be => minimax_fuel fuel (depth - 1) b (opponent p) a be) p
          (scan_squares.filter (fun m => decide (legalp m p b = some 1))) b INT_MAX alpha beta := by
  rw [minimax_fuel]
  by_cases hd : depth = 0
  · rw [if_pos hd, if_pos hd]
  · rw [if_neg hd, if_neg hd]
    rcases is_game_over_move_value b with h | h
    · rw [h]
      dsimp only
      rw [if_neg (by simp), if_neg (by simp), legal_moves_eq]
      dsimp only
      rw [process_moves_legal]
    · rw [h]
      dsimp only
      rw [if_pos (by decide), if_pos rfl]

theorem maximising_minimax_fuel_succ (fuel : Nat) (depth : Int) (b : Board)
    (p alpha beta : Int) :
    maximising_minimax_fuel (fuel + 1) depth b p alpha beta =
      if depth = 0 then some (evaluate p b, b)
      else if is_game_over_move b = some 1 then some (evaluate p b, b)
      else
        minimax_max_loop
          (fun b a be => maximising_minimax_fuel fuel (depth - 1) b (opponent p) a be) p
          (scan_squares.filter (fun m => decide (legalp m p b = some 1))) b INT_MIN alpha beta := by
  rw [maximising_minimax_fuel]
  by_cases hd : depth = 0
  · rw [if_pos hd, if_pos hd]
  · rw [if_neg hd, if_neg hd]
    rcases is_game_over_move_value b with h | h
    · rw [h]
      dsimp only
      rw [if_neg (by simp), if_neg (by simp), legal_moves_eq]
      dsimp only
      rw [process_moves_legal]
    · rw [h]
      dsimp only
      rw [if_pos (by decide), if_pos rfl]

theorem player_ne_zero (p : Int) (hp : p = BLACK ∨ p = WHITE) : p ≠ 0 := by
  rcases hp with rfl | rfl <;> decide

theorem minimax_is_maximising :
    ∀ (d : Nat) (b : Board) (p alpha beta : Int), (p = BLACK ∨ p = WHITE) →
      minimax d b p alpha beta = maximising_minimax d b p alpha beta := by
  intro d
  induction d with
  | zero => intro b p alpha beta _; rfl
  | succ n ih =>
    intro b p alpha beta hp
    rw [minimax_succ, maximising_minimax_succ, if_pos (player_ne_zero p hp)]
    have hfun : (fun b a be => minimax n b (opponent p) a be)
        = (fun b a be => maximising_minimax n b (opponent p) a be) := by
      funext b1 a be
      exact ih b1 (opponent p) a be (opponent_player p hp)
    rw [hfun]

theorem minimax_fuel_is_maximising :
    ∀ (fuel : Nat) (depth : Int) (b : Board) (p alpha beta : Int), (p = BLACK ∨ p = WHITE) →
      minimax_fuel fuel depth b p alpha beta
        = maximising_minimax_fuel fuel depth b p alpha beta := by
  intro fuel
  induction fuel with
  | zero => intro depth b p alpha beta _; rfl
  | succ n ih =>
    intro depth b p alpha beta hp
    rw [minimax_fuel_succ, maximising_minimax_fuel_succ, if_pos (player_ne_zero p hp)]
    have hfun : (fun b a be => minimax_fuel n (depth - 1) b (opponent p) a be)
        = (fun b a be => maximising_minimax_fuel n (depth - 1) b (opponent p) a be) := by
      funext b1 a be
      exact ih (depth - 1) b1 (opponent p) a be (opponent_player p hp)
    rw [hfun]

/-- With more fuel than depth, the `int`-depth recursion is `minimax`. -/
theorem minimax_fuel_eq :
    ∀ (d fuel : Nat) (b : Board) (p alpha beta : Int), d < fuel →
      minimax_fuel fuel (d : Int) b p alpha beta = minimax d b p alpha beta := by
  intro d
  induction d with
  | zero =>
    intro fuel b p alpha beta hf
    obtain ⟨n, rfl⟩ : ∃ n, fuel = n + 1 := ⟨fuel - 1, by omega⟩
    rw [minimax_fuel_succ, if_pos (by simp)]
    rfl
  | succ k ih =>
    intro fuel b p alpha beta hf
    obtain ⟨n, rfl⟩ : ∃ n, fuel = n + 1 := ⟨fuel - 1, by omega⟩
    rw [minimax_fuel_succ, minimax_succ, if_neg (by push_cast; omega)]
    have hsub : ((k + 1 : Nat) : Int) - 1 = (k : Int) := by push_cast; ring
    rw [hsub]
    have hfun : (fun b a be => minimax_fuel n (k : Int) b (opponent p) a be)
        = (fun b a be => minimax k b (opponent p) a be) := by
      funext b1 a be
      exact ih n b1 (opponent p) a be (by omega)
    rw [hfun]

/-- C24. For a player in BLACK/WHITE the test `if (player)` is true (`BLACK = 1`,
    `WHITE = 2`), and the opponent passed one ply down is again BLACK or WHITE, so
    `minimax` equals the function obtained by deleting the minimising branch, for every
    board, depth and window; this holds for the recursion on a non-negative depth and for
    the C `int` depth bounded by any fuel. At every node that is searched further, a
    player in BLACK/WHITE is non-zero and the node runs the maximising loop, so the
    minimising loop is left to the only remaining value of the test, player 0 = `EMPTY`.
    Nothing is stated about a player outside BLACK/WHITE. -/
theorem minimax_only_maximises (b : Board) (p alpha beta : Int)
    (hp : p = BLACK ∨ p = WHITE) :
    (BLACK ≠ 0 ∧ WHITE ≠ 0 ∧ EMPTY = 0) ∧
    (opponent p = BLACK ∨ opponent p = WHITE) ∧
    (∀ depth : Nat, minimax depth b p alpha beta = maximising_minimax depth b p alpha beta) ∧
    (∀ (fuel : Nat) (depth : Int),
      minimax_fuel fuel depth b p alpha beta
        = maximising_minimax_fuel fuel depth b p alpha beta) ∧
    (∀ (depth fuel : Nat), depth < fuel →
      minimax_fuel fuel (depth : Int) b p alpha beta = minimax depth b p alpha beta) ∧
    (∀ (depth : Nat) (q : Int), (q = BLACK ∨ q = WHITE) → is_game_over_move b = some 0 →
      q ≠ 0 ∧
      minimax (depth + 1) b q alpha beta =
        minimax_max_loop (fun b a be => minimax depth b (opponent q) a be) q
          (scan_squares.filter (fun m => decide (legalp m q b = some 1))) b INT_MIN
          alpha beta) := by
  refine ⟨⟨by decide, by decide, rfl⟩, opponent_player p hp,
    fun depth => minimax_is_maximising depth b p alpha beta hp,
    fun fuel depth => minimax_fuel_is_maximising fuel depth b p alpha beta hp,
    fun depth fuel hf => minimax_fuel_eq depth fuel b p alpha beta hf, ?_⟩
  intro depth q hq hover
  refine ⟨player_ne_zero q hq, ?_⟩
  rw [minimax_succ, if_neg (by rw [hover]; decide), if_pos (player_ne_zero q hq)]

theorem minimax_only_maximises_witness :
    (WHITE = BLACK ∨ WHITE = WHITE) ∧
    ((BLACK ≠ 0 ∧ WHITE ≠ 0 ∧ EMPTY = 0) ∧
    (opponent WHITE = BLACK ∨ opponent WHITE = WHITE) ∧
    (∀ depth : Nat, minimax depth initialise_board WHITE (-5) 7
      = maximising_minimax depth initialise_board WHITE (-5) 7) ∧
    (∀ (fuel : Nat) (depth : Int),
      minimax_fuel fuel depth initialise_board WHITE (-5) 7
        = maximising_minimax_fuel fuel depth initialise_board WHITE (-5) 7) ∧
    (∀ (depth fuel : Nat), depth < fuel →
      minimax_fuel fuel (depth : Int) initialise_board WHITE (-5) 7
        = minimax depth initialise_board WHITE (-5) 7) ∧
    (∀ (depth : Nat) (q : Int), (q = BLACK ∨ q = WHITE) →
      is_game_over_move initialise_board = some 0 →
      q ≠ 0 ∧
      minimax (depth + 1) initialise_board q (-5) 7 =
        minimax_max_loop (fun b a be => minimax depth b (opponent q) a be) q
          (scan_squares.filter (fun m => decide (legalp m q initialise_board = some 1)))
          initialise_board INT_MIN (-5) 7)) :=
  ⟨by decide, minimax_only_maximises initialise_board WHITE (-5) 7 (by decide)⟩
end MyPlayer
